import Mathlib

/-!
Shallow embedding of the JOJ card-game rule engine
(`src/game/jojGame.ts`, with the data model of `src/game/types.ts` and the
rank ladder of `src/game/ranks.ts`), together with proofs settling the
claims about its specification.

Modelling conventions, fixed once here:
* JavaScript numbers holding resource amounts, effect values and rank deltas
  are embedded as `Int` (the engine only ever does integer arithmetic on
  them).
* A TS `Record<ResourceKey, number>` is the 5-field structure `Resources`;
  a sparse `Partial<Record<ResourceKey, number>>` read through `?? 0` is the
  same structure with absent keys as `0`.
* `Record<string, T>` maps keyed by player id are total functions
  `String → T` together with the insertion-order key list
  `GameState.playerOrder` (`Object.keys`/`Object.entries` enumerate in
  insertion order, which the engine fixes at setup).
* A card's optional `effects` array is a `List Effect`; `undefined` and `[]`
  coincide (`!effects?.length` is the only way the engine looks at absence).
* In-place mutation is threaded state; a thrown `INVALID_REPLACEMENT`
  exception is the `.thrown` constructor carrying the partially mutated
  state, a `return false` is `.rejected`, mirroring the `try/catch` use.
* JavaScript's `Array.prototype.sort` with a consistent comparator is a
  stable sort; a stable sort with a total comparator has a unique result, so
  it is embedded by stable insertion sort (`List.insertionSort`).
* Chat, player-name and `players`-mirror bookkeeping (`appendChat`,
  `syncPlayerState`, `systemMessageSeq`) is cosmetic (spec §3 declares it
  out of scope for correctness) and never read back by any rule: it is
  omitted from the state.
-/

namespace JOJ

/-- The five resource kinds (`ResourceKey` in `types.ts`). -/
inductive ResourceKey : Type
  | time
  | reputation
  | discipline
  | documents
  | tech
deriving DecidableEq, Repr

/-- `resourceKeys` constant of `jojGame.ts` (iteration order of the engine). -/
def resourceKeys : List ResourceKey :=
  [.time, .reputation, .discipline, .documents, .tech]

/-- A full resource vector, one integer per `ResourceKey`. -/
structure Resources where
  time : Int
  reputation : Int
  discipline : Int
  documents : Int
  tech : Int
deriving DecidableEq, Repr

/-- Read one component (`resources[key]`). -/
def Resources.get (r : Resources) : ResourceKey → Int
  | .time => r.time
  | .reputation => r.reputation
  | .discipline => r.discipline
  | .documents => r.documents
  | .tech => r.tech

/-- Write one component (`resources[key] = v`). -/
def Resources.set (r : Resources) : ResourceKey → Int → Resources
  | .time, v => { r with time := v }
  | .reputation, v => { r with reputation := v }
  | .discipline, v => { r with discipline := v }
  | .documents, v => { r with documents := v }
  | .tech, v => { r with tech := v }

/-- The all-zero vector (an absent sparse record read through `?? 0`). -/
def Resources.zero : Resources := ⟨0, 0, 0, 0, 0⟩

/-- `EffectResource` of `types.ts`: a resource key or the `rank` pseudo-resource. -/
inductive EffectResource : Type
  | res (k : ResourceKey)
  | rank
deriving DecidableEq, Repr

/-- One entry of a card's effect list. -/
structure Effect where
  resource : EffectResource
  value : Int
deriving DecidableEq, Repr

/-- `CardCategory` of `types.ts`. -/
inductive CardCategory : Type
  | LYAP
  | SCANDAL
  | SUPPORT
  | DECISION
  | NEUTRAL
  | VVNZ
  | LEGENDARY
deriving DecidableEq, Repr

/-- A card (`Card` in `types.ts`); display-only fields (`title`, `image`,
`flavor`, the unused legacy `cost`) are dropped, `effects` is a plain list. -/
structure Card where
  id : String
  category : CardCategory
  effects : List Effect
deriving DecidableEq, Repr

/-- A ladder rank (`Rank` in `types.ts`); sparse maps are total with default 0. -/
structure Rank where
  id : String
  requirement : Resources
  cost : Resources
  bonus : Resources
deriving DecidableEq, Repr

/-- `HAND_LIMIT` constant. -/
def HAND_LIMIT : Nat := 8

/-- `STARTING_HAND_SIZE` constant. -/
def STARTING_HAND_SIZE : Nat := 5

/-- `GENERAL_RANK_ID` of `ranks.ts`. -/
def GENERAL_RANK_ID : String := "general"

/-- The base rank ladder of `ranks.ts` (requirements/costs as written there,
absent keys 0). -/
def baseRanks : List Rank :=
  [ { id := "cadet", requirement := Resources.zero, cost := Resources.zero,
      bonus := Resources.zero },
    { id := "captain", requirement := { Resources.zero with reputation := 3, discipline := 3 },
      cost := { Resources.zero with time := 1 }, bonus := Resources.zero },
    { id := "colonel",
      requirement := { Resources.zero with reputation := 5, discipline := 5, documents := 3 },
      cost := { Resources.zero with time := 2, tech := 1 }, bonus := Resources.zero },
    { id := "general",
      requirement := { Resources.zero with reputation := 8, discipline := 8, documents := 5, tech := 4 },
      cost := { Resources.zero with time := 3 }, bonus := Resources.zero } ]

/-- Stable descending sort by an integer score: the unique result of
JavaScript's stable `Array.prototype.sort` under the comparator
`(a, b) => f(b) - f(a)`, realised by stable insertion sort. -/
def sortByDesc {α : Type} (f : α → Int) (l : List α) : List α :=
  l.insertionSort (fun a b => f b ≤ f a)

/-- `hasResources`: every resource meets the (sparse) cost, non-strict `≥`. -/
def hasResources (resources : Resources) (cost : Resources) : Bool :=
  resourceKeys.all (fun key => cost.get key ≤ resources.get key)

/-- `spendResources`: subtract `max 0 (cost[key])` from every key (the
`if value > 0` guard in the source only skips no-op zero subtractions). -/
def spendResources (resources : Resources) (cost : Resources) : Resources :=
  { time := resources.time - max 0 cost.time
    reputation := resources.reputation - max 0 cost.reputation
    discipline := resources.discipline - max 0 cost.discipline
    documents := resources.documents - max 0 cost.documents
    tech := resources.tech - max 0 cost.tech }

/-- `applyResourceDelta`: pointwise addition. -/
def applyResourceDelta (resources : Resources) (delta : Resources) : Resources :=
  { time := resources.time + delta.time
    reputation := resources.reputation + delta.reputation
    discipline := resources.discipline + delta.discipline
    documents := resources.documents + delta.documents
    tech := resources.tech + delta.tech }

/-- `clampNonNegativeResources`: clamp every component at 0. -/
def clampNonNegativeResources (resources : Resources) : Resources :=
  { time := max 0 resources.time
    reputation := max 0 resources.reputation
    discipline := max 0 resources.discipline
    documents := max 0 resources.documents
    tech := max 0 resources.tech }

/-- Walk of `replacementCostUnits`: positive effects credit the virtual
balance, each negative effect pays `direct = min(max(0, virtual), required)`
and charges `2 ×` the remaining shortfall. -/
def costGo (virtual : Resources) : List Effect → Int
  | [] => 0
  | e :: rest =>
    match e.resource with
    | .rank => costGo virtual rest
    | .res r =>
      if 0 ≤ e.value then costGo (virtual.set r (virtual.get r + e.value)) rest
      else
        let required := -e.value
        let available := max 0 (virtual.get r)
        let direct := min available required
        costGo (virtual.set r (virtual.get r - direct)) rest + 2 * (required - direct)

/-- `replacementCostUnits(resources, effects)` of `jojGame.ts`. -/
def replacementCostUnits (resources : Resources) (effects : List Effect) : Int :=
  if effects.isEmpty then 0 else costGo resources effects

/-- One `find` of the planner: the resourceKeys stable-sorted descending by
current virtual balance, first key with a positive balance. -/
def pickOne (virtual : Resources) : Option ResourceKey :=
  (sortByDesc (fun k => virtual.get k) resourceKeys).find? (fun k => 0 < virtual.get k)

/-- The planner's `while (required > 0)` loop: per unit of shortfall pick two
currently-best positive resources, decrementing the virtual balance. -/
def pickPairs (virtual : Resources) : Nat → Option (List ResourceKey × Resources)
  | 0 => some ([], virtual)
  | n + 1 =>
    match pickOne virtual with
    | none => none
    | some k1 =>
      let v1 := virtual.set k1 (virtual.get k1 - 1)
      match pickOne v1 with
      | none => none
      | some k2 =>
        let v2 := v1.set k2 (v1.get k2 - 1)
        match pickPairs v2 n with
        | none => none
        | some (rest, v3) => some (k1 :: k2 :: rest, v3)

/-- Walk of `planReplacementResources` (note: unlike the cost walk it skips
positive effects without crediting them). -/
def planGo (virtual : Resources) : List Effect → Option (List ResourceKey)
  | [] => some []
  | e :: rest =>
    match e.resource with
    | .rank => planGo virtual rest
    | .res r =>
      if 0 ≤ e.value then planGo virtual rest
      else
        let required := -e.value
        let available := max 0 (virtual.get r)
        let direct := min available required
        let v1 := virtual.set r (virtual.get r - direct)
        match pickPairs v1 (required - direct).toNat with
        | none => none
        | some (picks, v2) =>
          match planGo v2 rest with
          | none => none
          | some more => some (picks ++ more)

/-- `planReplacementResources(resources, effects)` of `jojGame.ts`. -/
def planReplacementResources (resources : Resources) (effects : List Effect) :
    Option (List ResourceKey) :=
  if effects.isEmpty then some [] else planGo resources effects

/-- The virtual vectors at which the planner's shortfall loop attempts a
`find` (a `pickOne`), in attempt order, for one negative effect's `n`
shortfall units (two picks per unit, mirroring `pickPairs`). -/
def pickTrace (virtual : Resources) : Nat → List Resources
  | 0 => []
  | n + 1 =>
    virtual ::
      match pickOne virtual with
      | none => []
      | some k1 =>
        let v1 := virtual.set k1 (virtual.get k1 - 1)
        v1 ::
          match pickOne v1 with
          | none => []
          | some k2 => pickTrace (v1.set k2 (v1.get k2 - 1)) n

/-- All virtual vectors at which the planner attempts a pick during its walk
of the effect list (the points at which `planReplacementResources` can give
up and return `null`). -/
def planTrace (virtual : Resources) : List Effect → List Resources
  | [] => []
  | e :: rest =>
    match e.resource with
    | .rank => planTrace virtual rest
    | .res r =>
      if 0 ≤ e.value then planTrace virtual rest
      else
        let required := -e.value
        let available := max 0 (virtual.get r)
        let direct := min available required
        let v1 := virtual.set r (virtual.get r - direct)
        pickTrace v1 (required - direct).toNat ++
          match pickPairs v1 (required - direct).toNat with
          | none => []
          | some (_, v2) => planTrace v2 rest

/-- The strict consumption loop: per unit of remaining shortfall consume two
entries of the supplied replacement list in order, each entry must name a
resource that is currently positive, else the application throws
(`.error` carries the partially mutated vector, as the in-place mutation
retained at the moment `INVALID_REPLACEMENT` is thrown). -/
def consumePairs (res : Resources) (repl : List ResourceKey) :
    Nat → Except Resources (Resources × List ResourceKey)
  | 0 => .ok (res, repl)
  | n + 1 =>
    match repl with
    | [] => .error res
    | k1 :: rest1 =>
      if res.get k1 ≤ 0 then .error res
      else
        let res1 := res.set k1 (res.get k1 - 1)
        match rest1 with
        | [] => .error res1
        | k2 :: rest2 =>
          if res1.get k2 ≤ 0 then .error res1
          else consumePairs (res1.set k2 (res1.get k2 - 1)) rest2 n

/-- The resource walk of strict `applyCardEffects`: the real vector is
mutated in place; `.ok` returns the final vector and the unconsumed suffix
of the replacement list, `.error` the vector at the moment of the throw. -/
def applyGo (res : Resources) (repl : List ResourceKey) :
    List Effect → Except Resources (Resources × List ResourceKey)
  | [] => .ok (res, repl)
  | e :: rest =>
    match e.resource with
    | .rank => applyGo res repl rest
    | .res r =>
      if e.value < 0 then
        let required := -e.value
        let available := max 0 (res.get r)
        let direct := min available required
        let res1 := res.set r (res.get r - direct)
        match consumePairs res1 repl (required - direct).toNat with
        | .error res2 => .error res2
        | .ok (res2, repl2) => applyGo res2 repl2 rest
      else applyGo (res.set r (res.get r + e.value)) repl rest

/-- Match state owned by the engine (`JOJState` of `types.ts` minus the
cosmetic chat/name/mirror bookkeeping). The deck's top is its last element
(`deck.pop()`). -/
structure GameState where
  deck : List Card
  discard : List Card
  legendaryDeck : List Card
  playerOrder : List String
  hands : String → List Card
  ranks : String → String
  resources : String → Resources
  promotedThisTurn : String → Bool

/-- Outcome of strict `applyCardEffects` at the move boundary:
`ok` = returned `true` with the updated state, `rejected` = returned
`false` (no mutation has happened yet at that point), `thrown` = the
`INVALID_REPLACEMENT` exception escaped, carrying the partially mutated
state as retained by the in-place mutation. -/
inductive StrictOutcome : Type
  | ok (G : GameState)
  | rejected
  | thrown (G : GameState)

/-- Point update of a player-keyed map. -/
def updMap {α : Type} (f : String → α) (pid : String) (v : α) : String → α :=
  fun p => if p = pid then v else f p

/-- Replace one player's resource vector. -/
def GameState.setResources (G : GameState) (pid : String) (r : Resources) : GameState :=
  { G with resources := updMap G.resources pid r }

/-- `getTopRankId`: id of the last ladder rank, `GENERAL_RANK_ID` fallback. -/
def getTopRankId (activeRanks : List Rank) : String :=
  match activeRanks.getLast? with
  | some rank => rank.id
  | none => GENERAL_RANK_ID

/-- Ladder index of a rank id: `Math.max(0, ranks.findIndex(...))`
(an unknown id behaves as position 0). -/
def findRankIdx (activeRanks : List Rank) (rankId : String) : Nat :=
  match activeRanks.findIdx? (fun r => r.id = rankId) with
  | some i => i
  | none => 0

/-- `shiftRank`: move a player's ladder position by `delta`, clamped to
`[0, ranks.length - 1]`. The `.getD` fallback is unreachable for a non-empty
ladder (and `setSharedRanks` rejects empty ladders; the TS code would fault
there). -/
def shiftRankG (activeRanks : List Rank) (G : GameState) (pid : String) (delta : Int) :
    GameState :=
  if delta = 0 then G
  else
    let currentRankIdx := findRankIdx activeRanks (G.ranks pid)
    let nextIdx := max 0 (min ((activeRanks.length : Int) - 1) (currentRankIdx + delta))
    match activeRanks.get? nextIdx.toNat with
    | some rank => { G with ranks := updMap G.ranks pid rank.id }
    | none => G

/-- The rank-effect loop of `applyCardEffects`: each `rank`-typed effect is
applied through `shiftRank` in list order. -/
def applyRankEffects (activeRanks : List Rank) (G : GameState) (pid : String)
    (effects : List Effect) : GameState :=
  effects.foldl
    (fun g e =>
      match e.resource with
      | .rank => shiftRankG activeRanks g pid e.value
      | .res _ => g)
    G

/-- Strict `applyCardEffects(G, playerID, effects, replacementResources)`. -/
def applyCardEffects (activeRanks : List Rank) (G : GameState) (pid : String)
    (effects : List Effect) (replacementResources : List ResourceKey) : StrictOutcome :=
  if effects.isEmpty then .ok G
  else
    let needed := replacementCostUnits (G.resources pid) effects
    if (replacementResources.length : Int) ≠ needed then .rejected
    else
      match applyGo (G.resources pid) replacementResources effects with
      | .error res => .thrown (G.setResources pid res)
      | .ok (res, _) =>
        let G1 := applyRankEffects activeRanks (G.setResources pid res) pid effects
        .ok (G1.setResources pid (clampNonNegativeResources (G1.resources pid)))

/-- The summary soft application returns: per-resource deltas (a sparse
record read through `?? 0`, hence a total function with 0 for absent keys)
and a rank delta. -/
structure EffectSummary where
  resources : ResourceKey → Int
  rank : Int

/-- `summarizeAppliedDiff`: before/after diff of the resource vector, and
rank delta as difference of ladder indices when both rank ids resolve. -/
def summarizeAppliedDiff (activeRanks : List Rank) (beforeResources afterResources : Resources)
    (beforeRankId afterRankId : String) : EffectSummary :=
  let rdiff := fun k => afterResources.get k - beforeResources.get k
  match activeRanks.findIdx? (fun r => r.id = beforeRankId),
        activeRanks.findIdx? (fun r => r.id = afterRankId) with
  | some fromIdx, some toIdx => ⟨rdiff, (toIdx : Int) - (fromIdx : Int)⟩
  | _, _ => ⟨rdiff, 0⟩

/-- The per-effect resource step of the soft fallback: negative effects
subtract clamped at zero (tracking the actually applied delta), positive
effects add (tracking the nominal value). -/
def softResStep (acc : Resources × (ResourceKey → Int)) (e : Effect) :
    Resources × (ResourceKey → Int) :=
  match e.resource with
  | .rank => acc
  | .res r =>
    if e.value < 0 then
      let next := max 0 (acc.1.get r + e.value)
      let delta := next - acc.1.get r
      (acc.1.set r next, fun k => if k = r then acc.2 k + delta else acc.2 k)
    else
      (acc.1.set r (acc.1.get r + e.value),
       fun k => if k = r then acc.2 k + e.value else acc.2 k)

/-- The per-effect rank step of the soft fallback: rank effects shift the
ladder and add their nominal value to the summary. -/
def softRankStep (activeRanks : List Rank) (pid : String) (acc : GameState × Int)
    (e : Effect) : GameState × Int :=
  match e.resource with
  | .rank => (shiftRankG activeRanks acc.1 pid e.value, acc.2 + e.value)
  | .res _ => acc

/-- The clamping fallback of `applyCardEffectsSoft`: the resource loop, then
the rank loop, then a final clamp. -/
def softFallback (activeRanks : List Rank) (G : GameState) (pid : String)
    (effects : List Effect) : GameState × EffectSummary :=
  let resAcc := effects.foldl softResStep (G.resources pid, fun _ => 0)
  let G1 := G.setResources pid resAcc.1
  let rankAcc := effects.foldl (softRankStep activeRanks pid) (G1, 0)
  let G2 := rankAcc.1
  (G2.setResources pid (clampNonNegativeResources (G2.resources pid)),
   ⟨resAcc.2, rankAcc.2⟩)

/-- `applyCardEffectsSoft(G, playerID, effects)`: plan replacements, try the
strict path (a thrown strict application leaves its partial mutation behind
for the fallback, exactly as the source's `catch`), otherwise fall back to
clamped subtraction. -/
def applyCardEffectsSoft (activeRanks : List Rank) (G : GameState) (pid : String)
    (effects : List Effect) : GameState × EffectSummary :=
  if effects.isEmpty then (G, ⟨fun _ => 0, 0⟩)
  else
    let beforeResources := G.resources pid
    let beforeRankId := G.ranks pid
    match planReplacementResources (G.resources pid) effects with
    | some replacements =>
      match applyCardEffects activeRanks G pid effects replacements with
      | .ok G1 =>
        (G1, summarizeAppliedDiff activeRanks beforeResources (G1.resources pid)
              beforeRankId (G1.ranks pid))
      | .rejected => softFallback activeRanks G pid effects
      | .thrown G1 => softFallback activeRanks G1 pid effects
    | none => softFallback activeRanks G pid effects

/-- `drawCards(G, playerID, amount)`: pop up to `amount` cards from the top
(tail) of the deck into the player's hand, stopping on an empty deck. -/
def drawCards (G : GameState) (pid : String) : Nat → GameState
  | 0 => G
  | n + 1 =>
    match G.deck.getLast? with
    | none => G
    | some card =>
      drawCards
        { G with deck := G.deck.dropLast,
                 hands := updMap G.hands pid (G.hands pid ++ [card]) }
        pid n

/-- `rankSeatLimit(playerCount)`. -/
def rankSeatLimit (playerCount : Nat) : Nat :=
  if playerCount ≤ 2 then 1 else if playerCount ≤ 4 then 2 else 3

/-- `promoteRank(G, playerID, playerCount)`: `none` = returned `false`
(no mutation), `some` = the updated state. -/
def promoteRank (activeRanks : List Rank) (G : GameState) (pid : String)
    (playerCount : Nat) : Option GameState :=
  let currentRankIdx := findRankIdx activeRanks (G.ranks pid)
  match activeRanks.get? (currentRankIdx + 1) with
  | none => none
  | some nextRank =>
    let occupied :=
      (G.playerOrder.filter (fun p => p ≠ pid ∧ G.ranks p = nextRank.id)).length
    if rankSeatLimit playerCount ≤ occupied then none
    else if ¬ hasResources (G.resources pid) nextRank.requirement then none
    else if ¬ hasResources (G.resources pid) nextRank.cost then none
    else
      let r1 := spendResources (G.resources pid) nextRank.cost
      let r2 := applyResourceDelta r1 nextRank.bonus
      some { G with resources := updMap G.resources pid (clampNonNegativeResources r2),
                    ranks := updMap G.ranks pid nextRank.id }

/-- Sum of the five resource values (the winner comparator's score). -/
def sumResources (r : Resources) : Int :=
  resourceKeys.foldl (fun acc k => acc + r.get k) 0

/-- `getWinner(G)`: a final-rank occupant wins at once; else with an empty
deck and all hands empty, the head of the resource-sum-descending stable
sort of the players (= first player in declared order with the highest sum). -/
def getWinner (activeRanks : List Rank) (G : GameState) : Option String :=
  let topRankId := getTopRankId activeRanks
  match G.playerOrder.find? (fun pid => G.ranks pid = topRankId) with
  | some pid => some pid
  | none =>
    if G.deck.length = 0 then
      if G.playerOrder.any (fun pid => (G.hands pid).length ≠ 0) then none
      else (sortByDesc (fun pid => sumResources (G.resources pid)) G.playerOrder).head?
    else none

/-- Per-player stage of the turn state machine (`'idle'/'draw'/'play'/'end'`;
`'end'` is the constructor `done`). -/
inductive Stage : Type
  | idle
  | draw
  | play
  | done
deriving DecidableEq, Repr

/-- Full per-move view of a match: engine state plus the turn bookkeeping
boardgame.io carries in `ctx` (`currentPlayer`, `activePlayers`,
`numPlayers`). -/
structure MatchState where
  G : GameState
  currentPlayer : String
  stages : String → Stage
  numPlayers : Nat

/-- The hand-overflow trim loop of `playCard`: while the hand exceeds
`HAND_LIMIT`, shift the oldest card into the discard pile. -/
def trimHand : List Card → List Card → List Card × List Card
  | [], discard => ([], discard)
  | c :: rest, discard =>
    if HAND_LIMIT < (c :: rest).length then trimHand rest (discard ++ [c])
    else (c :: rest, discard)

/-- `drawCard` move. `none` = `INVALID_MOVE`. -/
def drawCardMove (activeRanks : List Rank) (s : MatchState) (pid : String) :
    Option MatchState :=
  if pid ≠ s.currentPlayer then none
  else if s.stages pid ≠ Stage.draw then none
  else if HAND_LIMIT ≤ (s.G.hands pid).length then none
  else
    match s.G.deck.getLast? with
    | none =>
      -- empty deck: no card is drawn, `autoPlayed` stays false
      some { s with stages := updMap s.stages pid Stage.play }
    | some card =>
      let G0 := { s.G with deck := s.G.deck.dropLast }
      if card.category = CardCategory.LYAP then
        let G1 := (applyCardEffectsSoft activeRanks G0 pid card.effects).1
        let G2 := { G1 with discard := G1.discard ++ [card] }
        some { s with G := G2, stages := updMap s.stages pid Stage.done }
      else if card.category = CardCategory.SCANDAL then
        let G1 := G0.playerOrder.foldl
          (fun g p => (applyCardEffectsSoft activeRanks g p card.effects).1) G0
        let G2 := { G1 with discard := G1.discard ++ [card] }
        some { s with G := G2, stages := updMap s.stages pid Stage.done }
      else
        let G1 := { G0 with hands := updMap G0.hands pid (G0.hands pid ++ [card]) }
        some { s with G := G1, stages := updMap s.stages pid Stage.play }

/-- One player of the DECISION `forEach`: once the invalid flag is set the
remaining players are skipped; the actor pays strictly (a throw keeps its
partial mutation in the draft and raises the flag), everyone else is hit in
soft mode. -/
def decisionStep (activeRanks : List Rank) (pid : String) (effects : List Effect)
    (replacementResources : List ResourceKey) (acc : GameState × Bool) (p : String) :
    GameState × Bool :=
  if acc.2 then acc
  else if p = pid then
    match applyCardEffects activeRanks acc.1 pid effects replacementResources with
    | .ok g1 => (g1, false)
    | .rejected => (acc.1, true)
    | .thrown g1 => (g1, true)
  else ((applyCardEffectsSoft activeRanks acc.1 p effects).1, false)

/-- The category dispatch of `playCard` on a located card: `none` =
`INVALID_MOVE` from the resolution (the partially mutated draft a failing
DECISION leaves behind is discarded with the rejection, as the move host
reverts the draft). -/
def playCardResolve (activeRanks : List Rank) (G : GameState) (pid : String) (card : Card)
    (replacementResources : List ResourceKey) (targetPlayerID : Option String) :
    Option GameState :=
  if card.category = CardCategory.LYAP then
    match targetPlayerID with
    | none => none
    | some target =>
      if target = pid then none
      else if target ∉ G.playerOrder then none
      else some (applyCardEffectsSoft activeRanks G target card.effects).1
  else if card.category = CardCategory.SCANDAL then
    some ((G.playerOrder.filter (fun p => p ≠ pid)).foldl
      (fun g p => (applyCardEffectsSoft activeRanks g p card.effects).1) G)
  else if card.category = CardCategory.SUPPORT then
    match applyCardEffects activeRanks G pid card.effects replacementResources with
    | .ok G1 => some G1
    | .rejected => none
    | .thrown _ => none
  else if card.category = CardCategory.DECISION then
    let acc := G.playerOrder.foldl
      (decisionStep activeRanks pid card.effects replacementResources) (G, false)
    if acc.2 then none else some acc.1
  else
    match applyCardEffects activeRanks G pid card.effects replacementResources with
    | .ok G1 => some G1
    | .rejected => none
    | .thrown _ => none

/-- `playCard` move. `none` = `INVALID_MOVE`. -/
def playCardMove (activeRanks : List Rank) (s : MatchState) (pid : String) (cardId : String)
    (replacementResources : List ResourceKey) (targetPlayerID : Option String) :
    Option MatchState :=
  if pid ≠ s.currentPlayer then none
  else if s.stages pid ≠ Stage.play then none
  else
    let hand := s.G.hands pid
    let idx := hand.findIdx (fun c => c.id = cardId)
    match hand.get? idx with
    | none => none
    | some card =>
      match playCardResolve activeRanks s.G pid card replacementResources targetPlayerID with
      | none => none
      | some G1 =>
        let hand1 := (G1.hands pid).eraseIdx idx
        let discard1 := G1.discard ++ [card]
        let trimmed := trimHand hand1 discard1
        some { s with
                 G := { G1 with hands := updMap G1.hands pid trimmed.1,
                                discard := trimmed.2 },
                 stages := updMap s.stages pid Stage.done }

/-- The player count the `promote` move hands to `promoteRank`:
`Object.keys(G.players).length || Number(ctx.numPlayers ?? 0) || 2`
(JavaScript `||` takes the next operand on 0). -/
def promotePlayerCount (s : MatchState) : Nat :=
  if s.G.playerOrder.length = 0 then (if s.numPlayers = 0 then 2 else s.numPlayers)
  else s.G.playerOrder.length

/-- `promote` move. `none` = `INVALID_MOVE`. -/
def promoteMove (activeRanks : List Rank) (s : MatchState) (pid : String) :
    Option MatchState :=
  if pid ≠ s.currentPlayer then none
  else if s.stages pid ≠ Stage.play then none
  else if s.G.promotedThisTurn pid then none
  else
    match promoteRank activeRanks s.G pid (promotePlayerCount s) with
    | none => none
    | some G1 =>
      some { s with G := { G1 with promotedThisTurn := updMap G1.promotedThisTurn pid true } }

/-- Modelled from the spec: the turn rotation the external move host
(boardgame.io) performs on `events.endTurn()` — the next player in declared
order becomes current — combined with the repository's `turn.onBegin`
(jojGame.ts): clear every player's `promotedThisTurn`, everyone `idle`, and
the new current player starts in `draw` when the deck is non-empty, else
directly in `play`. -/
def endTurn (s : MatchState) : MatchState :=
  let order := s.G.playerOrder
  let idx := order.indexOf s.currentPlayer
  let next := order.getD ((idx + 1) % order.length) s.currentPlayer
  { G := { s.G with promotedThisTurn := fun _ => false }
    currentPlayer := next
    numPlayers := s.numPlayers
    stages := fun p =>
      if p = next then (if 0 < s.G.deck.length then Stage.draw else Stage.play)
      else Stage.idle }

/-- `pass` move. `none` = `INVALID_MOVE`. -/
def passMove (s : MatchState) (pid : String) : Option MatchState :=
  if pid ≠ s.currentPlayer then none
  else if s.stages pid ≠ Stage.play ∧ s.stages pid ≠ Stage.done then none
  else some (endTurn s)

/-- Modelled from the spec: the external move host commits a move's draft
state only when the move does not return `INVALID_MOVE`; a rejected move
leaves the match state byte-for-byte unchanged (spec §7). -/
def commitMove (s : MatchState) : Option MatchState → MatchState
  | some s1 => s1
  | none => s

/-- Match setup (`jojGame.setup` followed by the first `turn.onBegin`):
every player starts at the first ladder rank with the 2/2/2/2/2 vector
and a starting hand of `STARTING_HAND_SIZE` cards; `shuffledDeck` and
`shuffledLegendary` stand for the shuffled copies of the shared template
(the `Math.random` shuffle is an input permutation of the model). -/
def setupState (activeRanks : List Rank) (shuffledDeck shuffledLegendary : List Card)
    (order : List String) : MatchState :=
  let startRank :=
    match activeRanks.head? with
    | some rank => rank.id
    | none => "cadet"
  let G0 : GameState :=
    { deck := shuffledDeck
      discard := []
      legendaryDeck := shuffledLegendary
      playerOrder := order
      hands := fun _ => []
      ranks := fun _ => startRank
      resources := fun _ => ⟨2, 2, 2, 2, 2⟩
      promotedThisTurn := fun _ => false }
  let G1 := order.foldl (fun g p => drawCards g p STARTING_HAND_SIZE) G0
  let current := order.headD ""
  { G := G1
    currentPlayer := current
    numPlayers := order.length
    stages := fun p =>
      if p = current then (if 0 < G1.deck.length then Stage.draw else Stage.play)
      else Stage.idle }

/-- One accepted move of the turn state machine. -/
inductive MoveStep (activeRanks : List Rank) : MatchState → MatchState → Prop
  | draw (s s1 : MatchState) (pid : String) :
      drawCardMove activeRanks s pid = some s1 → MoveStep activeRanks s s1
  | play (s s1 : MatchState) (pid cardId : String) (repl : List ResourceKey)
      (target : Option String) :
      playCardMove activeRanks s pid cardId repl target = some s1 → MoveStep activeRanks s s1
  | promote (s s1 : MatchState) (pid : String) :
      promoteMove activeRanks s pid = some s1 → MoveStep activeRanks s s1
  | pass (s s1 : MatchState) (pid : String) :
      passMove s pid = some s1 → MoveStep activeRanks s s1

/-- Reachability: some setup state leads to `s` by a sequence of accepted
moves. -/
def Reachable (activeRanks : List Rank) (s : MatchState) : Prop :=
  ∃ shuffledDeck shuffledLegendary order,
    Relation.ReflTransGen (MoveStep activeRanks)
      (setupState activeRanks shuffledDeck shuffledLegendary order) s

/-- Raw `ranks.findIndex` result as the simulation heuristic uses it
(−1 for an unknown rank id, without the `Math.max(0, ·)` of the engine). -/
def findRankIdxSigned (activeRanks : List Rank) (rankId : String) : Int :=
  match activeRanks.findIdx? (fun r => r.id = rankId) with
  | some i => (i : Int)
  | none => -1

/-- `chooseLyapTarget`: the other player with the highest heuristic score
(resource sum plus twice the ladder index), stable-descending sort then
first candidate. -/
def chooseLyapTarget (activeRanks : List Rank) (G : GameState) (sourcePid : String) :
    Option String :=
  let score := fun pid =>
    sumResources (G.resources pid) + (findRankIdxSigned activeRanks (G.ranks pid)) * 2
  let candidates := G.playerOrder.filter (fun pid => pid ≠ sourcePid)
  if candidates.isEmpty then none
  else (sortByDesc score candidates).head?

/-- The hand scan of the simulation policy: first card that can be played,
with the per-category resolution of `simulateSingleMatch` (LYAP targets the
best-scoring opponent, SCANDAL hits the others, DECISION hits everyone
including the actor in soft mode, anything else is strict self-payment via
the planner, skipped when planning or strict application fails — a thrown
strict application keeps its partial mutation, as in the source). Returns
the state after the attempted resolutions and the played card's index. -/
def scanHandAux (activeRanks : List Rank) (playerIDs : List String) (pid : String) :
    GameState → List Card → Nat → GameState × Option (Nat × Card)
  | G, [], _ => (G, none)
  | G, card :: rest, i =>
    match card.category with
    | .LYAP =>
      match chooseLyapTarget activeRanks G pid with
      | none => scanHandAux activeRanks playerIDs pid G rest (i + 1)
      | some target =>
        ((applyCardEffectsSoft activeRanks G target card.effects).1, some (i, card))
    | .SCANDAL =>
      ((playerIDs.filter (fun p => p ≠ pid)).foldl
        (fun g p => (applyCardEffectsSoft activeRanks g p card.effects).1) G,
       some (i, card))
    | .DECISION =>
      (playerIDs.foldl
        (fun g p => (applyCardEffectsSoft activeRanks g p card.effects).1) G,
       some (i, card))
    | _ =>
      match planReplacementResources (G.resources pid) card.effects with
      | none => scanHandAux activeRanks playerIDs pid G rest (i + 1)
      | some repl =>
        match applyCardEffects activeRanks G pid card.effects repl with
        | .ok G1 => (G1, some (i, card))
        | .rejected => scanHandAux activeRanks playerIDs pid G rest (i + 1)
        | .thrown G1 => scanHandAux activeRanks playerIDs pid G1 rest (i + 1)

/-- Result record of one simulated match (the fields the harness keeps). -/
structure SimOutcome where
  winner : String
  turns : Nat
  stalled : Bool
  wonByRank : Bool
  passes : Nat
  reachedRanks : String → String
  finalResources : String → Resources

/-- The tie-break used for stalled matches: resource-sum-descending stable
sort of the players, first one, `'0'` when there are no players. -/
def fallbackWinner (G : GameState) : String :=
  ((sortByDesc (fun pid => sumResources (G.resources pid)) G.playerOrder).head?).getD "0"

/-- The draw phase of one simulated turn: pop the top card; LYAP backfires on
the drawer, SCANDAL splashes every seat (both end the turn), anything else
goes to the hand. -/
def simDraw (activeRanks : List Rank) (playerIDs : List String) (G : GameState)
    (pid : String) : GameState × Stage :=
  match G.deck.getLast? with
  | none => (G, Stage.play)
  | some card =>
    let G0 := { G with deck := G.deck.dropLast }
    if card.category = CardCategory.LYAP then
      let G1 := (applyCardEffectsSoft activeRanks G0 pid card.effects).1
      ({ G1 with discard := G1.discard ++ [card] }, Stage.done)
    else if card.category = CardCategory.SCANDAL then
      let G1 := playerIDs.foldl
        (fun g p => (applyCardEffectsSoft activeRanks g p card.effects).1) G0
      ({ G1 with discard := G1.discard ++ [card] }, Stage.done)
    else
      ({ G0 with hands := updMap G0.hands pid (G0.hands pid ++ [card]) }, Stage.play)

/-- The play phase of one simulated turn: try a pre-scan promotion, scan the
hand for a playable card, discard it, then retry promotion; a turn with no
play counts as a pass. -/
def simPlay (activeRanks : List Rank) (playerIDs : List String) (numPlayers : Nat)
    (pid : String) (drawn : GameState × Stage) (passes : Nat) : GameState × Nat :=
  let G1 := drawn.1
  if drawn.2 = Stage.play then
    let promoted : GameState × Bool :=
      match promoteRank activeRanks G1 pid numPlayers with
      | some g => (g, true)
      | none => (G1, false)
    let G2 := promoted.1
    match scanHandAux activeRanks playerIDs pid G2 (G2.hands pid) 0 with
    | (G3, none) => (G3, passes + 1)
    | (G3, some (idx, card)) =>
      let G4 := { G3 with hands := updMap G3.hands pid ((G3.hands pid).eraseIdx idx),
                          discard := G3.discard ++ [card] }
      let G5 :=
        if promoted.2 then G4
        else
          match promoteRank activeRanks G4 pid numPlayers with
          | some g => g
          | none => G4
      (G5, passes)
  else (G1, passes + 1)

/-- One turn of `simulateSingleMatch`'s `while` loop, recursing on the
remaining turn budget (`fuel = maxTurns - turns`). -/
def simLoop (activeRanks : List Rank) (playerIDs : List String) (numPlayers : Nat)
    (maxTurns : Nat) :
    Nat → GameState → Nat → Nat → Nat → SimOutcome
  | 0, G, _, _, passes => -- turn budget exhausted: stalled, tie-break winner
    let w := fallbackWinner G
    { winner := w, turns := maxTurns, stalled := true,
      wonByRank := G.ranks w = getTopRankId activeRanks, passes := passes,
      reachedRanks := G.ranks, finalResources := G.resources }
  | fuel + 1, G, currentIdx, turns, passes =>
    let pid := playerIDs.getD currentIdx ""
    let played := simPlay activeRanks playerIDs numPlayers pid
      (simDraw activeRanks playerIDs G pid) passes
    let Gf := played.1
    let passes1 := played.2
    let turns1 := turns + 1
    match getWinner activeRanks Gf with
    | some w =>
      { winner := w, turns := turns1, stalled := false,
        wonByRank := Gf.ranks w = getTopRankId activeRanks, passes := passes1,
        reachedRanks := Gf.ranks, finalResources := Gf.resources }
    | none =>
      simLoop activeRanks playerIDs numPlayers maxTurns fuel Gf
        ((currentIdx + 1) % playerIDs.length) turns1 passes1

/-- `simulateSingleMatch(numPlayers, maxTurns)`; the two `Math.random`
shuffles are the `shuffledDeck`/`shuffledLegendary` input permutations. -/
def simulateSingleMatch (activeRanks : List Rank)
    (shuffledDeck shuffledLegendary : List Card) (numPlayers maxTurns : Nat) : SimOutcome :=
  let playerIDs := (List.range numPlayers).map (fun i => toString i)
  let startRank :=
    match activeRanks.head? with
    | some rank => rank.id
    | none => "cadet"
  let G0 : GameState :=
    { deck := shuffledDeck
      discard := []
      legendaryDeck := shuffledLegendary
      playerOrder := playerIDs
      hands := fun _ => []
      ranks := fun _ => startRank
      resources := fun _ => ⟨2, 2, 2, 2, 2⟩
      promotedThisTurn := fun _ => false }
  let G1 := playerIDs.foldl (fun g p => drawCards g p STARTING_HAND_SIZE) G0
  simLoop activeRanks playerIDs numPlayers maxTurns maxTurns G1 0 0 0

/-- The input clamps of `runGameSimulations` (JavaScript `x || d` maps 0 to
the default). -/
def clampPlayers (players : Nat) : Nat :=
  max 2 (min 6 (if players = 0 then 2 else players))

/-- Simulation-count clamp. -/
def clampSims (simulations : Nat) : Nat :=
  max 1 (min 5000 (if simulations = 0 then 1 else simulations))

/-- Turn-budget clamp. -/
def clampMaxTurns (maxTurns : Nat) : Nat :=
  max 20 (min 4000 (if maxTurns = 0 then 600 else maxTurns))

/-- The aggregation loop of `runGameSimulations`: per-winner win counts over
the simulated matches (`deckOf`/`legOf` supply each match's shuffles). -/
def runSimWinsLoop (activeRanks : List Rank) (deckOf legOf : Nat → List Card)
    (numPlayers maxTurns : Nat) : Nat → (String → Nat) → (String → Nat)
  | 0, wins => wins
  | i + 1, wins =>
    let result := simulateSingleMatch activeRanks (deckOf i) (legOf i) numPlayers maxTurns
    runSimWinsLoop activeRanks deckOf legOf numPlayers maxTurns i
      (updMap wins result.winner (wins result.winner + 1))

/-- `runGameSimulations(...).seatWinRates`, restricted to the exact win
counts (the percentage fields go through floating-point `toFixed` and are
out of the integer model's scope). -/
def seatWins (activeRanks : List Rank) (deckOf legOf : Nat → List Card)
    (players simulations maxTurns : Nat) : List (String × Nat) :=
  let wins := runSimWinsLoop activeRanks deckOf legOf (clampPlayers players)
    (clampMaxTurns maxTurns) (clampSims simulations) (fun _ => 0)
  (List.range (clampPlayers players)).map (fun i => (toString i, wins (toString i)))

/-- Whether strict application returned `true`. -/
def StrictOutcome.isOk : StrictOutcome → Bool
  | .ok _ => true
  | .rejected => false
  | .thrown _ => false

/-- Pointwise order on resource vectors (the inductive invariant tying the
cost walk, the planner walk and the strict walk together). -/
def Rle (a b : Resources) : Prop :=
  ∀ k, a.get k ≤ b.get k

/-- A small concrete two-player state used by witnesses/counterexamples. -/
def fixtureG (res : Resources) (rankId : String) : GameState :=
  { deck := []
    discard := []
    legendaryDeck := []
    playerOrder := ["0", "1"]
    hands := fun _ => []
    ranks := fun _ => rankId
    resources := fun _ => res
    promotedThisTurn := fun _ => false }

/-- A concrete two-player match state around `fixtureG`, player "0" active. -/
def fixtureMS (G : GameState) (stage0 : Stage) : MatchState :=
  { G := G
    currentPlayer := "0"
    stages := fun p => if p = "0" then stage0 else Stage.idle
    numPlayers := 2 }

/-- A concrete NEUTRAL card with no effects. -/
def neutralCard : Card := ⟨"n1", CardCategory.NEUTRAL, []⟩

/-- A concrete draw-stage state whose deck holds exactly `neutralCard`. -/
def drawFixture : MatchState :=
  fixtureMS { fixtureG ⟨2, 2, 2, 2, 2⟩ "cadet" with deck := [neutralCard] } Stage.draw

/-- A concrete DECISION card demanding more than its holder can pay. -/
def decisionCard : Card := ⟨"d1", CardCategory.DECISION, [⟨.res .discipline, -1⟩]⟩

/-- A concrete two-player play-stage state: the active player "1" (seated
after player "0", so the DECISION splash to "0" is attempted first) holds
`decisionCard` with all-zero resources. -/
def decisionFixture : MatchState :=
  { G := { fixtureG ⟨0, 0, 0, 0, 0⟩ "cadet" with
      hands := fun p => if p = "1" then [decisionCard] else [] }
    currentPlayer := "1"
    stages := fun p => if p = "1" then Stage.play else Stage.idle
    numPlayers := 2 }

/-! ## Basic lemmas about the resource vector -/

theorem Resources.get_set (r : Resources) (k k' : ResourceKey) (v : Int) :
    (r.set k v).get k' = if k' = k then v else r.get k' := by
  cases k <;> cases k' <;> simp [Resources.set, Resources.get]

theorem clamp_get (r : Resources) (k : ResourceKey) :
    (clampNonNegativeResources r).get k = max 0 (r.get k) := by
  cases k <;> rfl

theorem clamp_nonneg (r : Resources) (k : ResourceKey) :
    0 ≤ (clampNonNegativeResources r).get k := by
  rw [clamp_get]; exact le_max_left 0 (r.get k)

theorem Rle.refl (r : Resources) : Rle r r := fun _ => le_rfl

theorem get_dec_le (r : Resources) (k k' : ResourceKey) :
    (r.set k (r.get k - 1)).get k' ≤ r.get k' := by
  rw [Resources.get_set]
  by_cases e : k' = k
  · subst e; simp
  · simp [e]

/-! ## The cost walk versus the strict walk (claim C1) -/

theorem consumePairs_ok (n : Nat) :
    ∀ (res : Resources) (repl : List ResourceKey) (res2 : Resources)
      (repl2 : List ResourceKey),
      consumePairs res repl n = .ok (res2, repl2) →
      repl.length = 2 * n + repl2.length ∧ ∀ k, res2.get k ≤ res.get k := by
  induction n with
  | zero =>
    intro res repl res2 repl2 h
    simp only [consumePairs] at h
    cases h
    exact ⟨by omega, fun k => le_rfl⟩
  | succ n ih =>
    intro res repl res2 repl2 h
    match repl with
    | [] => simp [consumePairs] at h
    | k1 :: rest1 =>
      simp only [consumePairs] at h
      by_cases h1 : res.get k1 ≤ 0
      · simp [h1] at h
      · simp only [h1, if_false] at h
        match rest1 with
        | [] => simp at h
        | k2 :: rest2 =>
          by_cases h2 : (res.set k1 (res.get k1 - 1)).get k2 ≤ 0
          · simp [h2] at h
          · simp only [h2, if_false] at h
            obtain ⟨hlen, hle⟩ := ih _ _ _ _ h
            refine ⟨by simp [List.length_cons]; omega, fun k => ?_⟩
            exact le_trans (hle k) (le_trans (get_dec_le _ k2 k) (get_dec_le _ k1 k))

theorem applyGo_ok_cost (effects : List Effect) :
    ∀ (rv cv : Resources) (repl : List ResourceKey) (res2 : Resources)
      (leftover : List ResourceKey),
      Rle rv cv → applyGo rv repl effects = .ok (res2, leftover) →
      costGo cv effects + leftover.length ≤ (repl.length : Int) := by
  induction effects with
  | nil =>
    intro rv cv repl res2 leftover _ h
    simp only [applyGo] at h
    cases h
    simp [costGo]
  | cons e rest ih =>
    intro rv cv repl res2 leftover hle h
    match he : e.resource with
    | .rank =>
      simp only [applyGo, he, costGo] at h ⊢
      exact ih rv cv repl res2 leftover hle h
    | .res r =>
      by_cases hv : e.value < 0
      · simp only [applyGo, he, hv, if_true, costGo] at h ⊢
        have hnotpos : ¬ 0 ≤ e.value := by omega
        simp only [hnotpos, if_false]
        set required := -e.value with hreq
        set direct_r := min (max 0 (rv.get r)) required with hdr
        set direct_c := min (max 0 (cv.get r)) required with hdc
        cases hc : consumePairs (rv.set r (rv.get r - direct_r)) repl (required - direct_r).toNat with
        | error res' => rw [hc] at h; cases h
        | ok p =>
          obtain ⟨rv2, repl2⟩ := p
          rw [hc] at h
          obtain ⟨hlen, hdec⟩ := consumePairs_ok _ _ _ _ _ hc
          have hRle2 : Rle rv2 (cv.set r (cv.get r - direct_c)) := by
            intro k
            have h1 := hdec k
            have h2 := hle k
            have h3 := hle r
            simp only [Resources.get_set] at h1 ⊢
            by_cases ek : k = r <;> simp [ek] at h1 ⊢ <;> omega
          have hIH := ih rv2 (cv.set r (cv.get r - direct_c)) repl2 res2 leftover hRle2 h
          have hcast : ((required - direct_r).toNat : Int) = required - direct_r := by
            have : direct_r ≤ required := min_le_right _ _
            omega
          have hdir : direct_r ≤ direct_c := by
            have := hle r
            omega
          have hlen' : (repl.length : Int) = 2 * (required - direct_r) + repl2.length := by
            omega
          omega
      · have hpos : 0 ≤ e.value := by omega
        simp only [applyGo, he, hv, if_false, costGo, hpos, if_true] at h ⊢
        have hle' : Rle (rv.set r (rv.get r + e.value)) (cv.set r (cv.get r + e.value)) := by
          intro k
          have h2 := hle k
          have h3 := hle r
          simp only [Resources.get_set]
          by_cases ek : k = r <;> simp [ek] <;> omega
        exact ih _ _ repl res2 leftover hle' h

/-- C1 — `replacementCostUnits` equals the number of replacement entries a
succeeding strict application consumes (it always consumes the whole list),
and for a card with at least one effect, a replacement list whose length
differs from it is rejected. (For a card with no effects, strict
application accepts any list — see the counterexample.) -/
theorem c1_cost_matches_consumption (activeRanks : List Rank) (G : GameState) (pid : String)
    (effects : List Effect) (repl : List ResourceKey) :
    ((applyCardEffects activeRanks G pid effects repl).isOk = true →
      ∀ res1 leftover, applyGo (G.resources pid) repl effects = .ok (res1, leftover) →
      (repl.length : Int) - leftover.length = replacementCostUnits (G.resources pid) effects)
    ∧ (effects ≠ [] →
        (repl.length : Int) ≠ replacementCostUnits (G.resources pid) effects →
        applyCardEffects activeRanks G pid effects repl = .rejected) := by
  constructor
  · intro hok res1 leftover hgo
    by_cases hemp : effects.isEmpty
    · have : effects = [] := List.isEmpty_iff.mp hemp
      subst this
      simp only [applyGo] at hgo
      cases hgo
      simp [replacementCostUnits]
    · simp only [applyCardEffects, hemp, if_false] at hok
      by_cases hlen : (repl.length : Int) ≠ replacementCostUnits (G.resources pid) effects
      · simp [hlen, StrictOutcome.isOk] at hok
      · push_neg at hlen
        simp only [hlen]
        have hcost := applyGo_ok_cost effects (G.resources pid) (G.resources pid) repl res1
          leftover (Rle.refl _) hgo
        have : replacementCostUnits (G.resources pid) effects = costGo (G.resources pid) effects := by
          simp [replacementCostUnits, hemp]
        omega
  · intro hne hlen
    have hemp : effects.isEmpty = false := by
      cases effects with
      | nil => exact absurd rfl hne
      | cons a l => rfl
    simp [applyCardEffects, hemp, hlen]

/-- C1 counterexample — a card with no effects: `replacementCostUnits` is 0,
yet strict application accepts (and ignores) a 1-entry replacement list
instead of rejecting it. -/
theorem c1_counterexample :
    (applyCardEffects baseRanks (fixtureG ⟨2, 2, 2, 2, 2⟩ "cadet") "0" []
      [ResourceKey.time]).isOk = true
    ∧ replacementCostUnits ((fixtureG ⟨2, 2, 2, 2, 2⟩ "cadet").resources "0") []
      ≠ (([ResourceKey.time].length : Nat) : Int) := by
  constructor
  · rfl
  · decide

/-- C1 witness — the spec's own scenario at resources `(1,1,0,0,0)` and the
single effect `discipline −1` (cost 2): the successful strict application
with `[time, reputation]` consumes both entries, and the 1-entry list
`[time]` is rejected. -/
theorem c1_witness :
    ((([ResourceKey.time, ResourceKey.reputation].length : Nat) : Int) -
        (([] : List ResourceKey).length : Nat) =
      replacementCostUnits ((fixtureG ⟨1, 1, 0, 0, 0⟩ "cadet").resources "0")
        [⟨.res .discipline, -1⟩])
    ∧ applyCardEffects baseRanks (fixtureG ⟨1, 1, 0, 0, 0⟩ "cadet") "0"
        [⟨.res .discipline, -1⟩] [ResourceKey.time] = .rejected := by
  constructor
  · exact (c1_cost_matches_consumption baseRanks (fixtureG ⟨1, 1, 0, 0, 0⟩ "cadet") "0"
      [⟨.res .discipline, -1⟩] [ResourceKey.time, ResourceKey.reputation]).1
      (by decide) ⟨0, 0, 0, 0, 0⟩ [] (by rfl)
  · exact (c1_cost_matches_consumption baseRanks (fixtureG ⟨1, 1, 0, 0, 0⟩ "cadet") "0"
      [⟨.res .discipline, -1⟩] [ResourceKey.time]).2 (by decide) (by decide)

/-! ## The planner walk versus the cost walk and the strict walk (claim C4)

The planner ignores positive effects and its picks drain the virtual
balance, so a returned plan can be longer than `replacementCostUnits`;
strict application rejects exactly those plans by its length precheck, and
accepts a returned plan exactly when its length equals the cost. -/

theorem Rle.dec {a b : Resources} (hle : Rle a b) (k1 : ResourceKey) :
    Rle (a.set k1 (a.get k1 - 1)) (b.set k1 (b.get k1 - 1)) := by
  intro k
  rw [Resources.get_set, Resources.get_set]
  by_cases e : k = k1
  · simp only [e, if_pos]
    have := hle k1
    omega
  · simp only [e, if_neg, if_false]
    exact hle k

theorem pickOne_pos (v : Resources) (k : ResourceKey) (h : pickOne v = some k) :
    0 < v.get k := by
  have := List.find?_some h
  simpa using this

theorem pickPairs_succ_inv {v : Resources} {n : Nat} {picks : List ResourceKey}
    {v' : Resources} (h : pickPairs v (n + 1) = some (picks, v')) :
    ∃ k1 k2 rest, pickOne v = some k1 ∧
      pickOne (v.set k1 (v.get k1 - 1)) = some k2 ∧
      pickPairs ((v.set k1 (v.get k1 - 1)).set k2
        ((v.set k1 (v.get k1 - 1)).get k2 - 1)) n = some (rest, v') ∧
      picks = k1 :: k2 :: rest := by
  simp only [pickPairs] at h
  cases h1 : pickOne v with
  | none => simp [h1] at h
  | some k1 =>
    simp only [h1] at h
    cases h2 : pickOne (v.set k1 (v.get k1 - 1)) with
    | none => simp [h2] at h
    | some k2 =>
      simp only [h2] at h
      cases h3 : pickPairs ((v.set k1 (v.get k1 - 1)).set k2
          ((v.set k1 (v.get k1 - 1)).get k2 - 1)) n with
      | none => simp [h3] at h
      | some p =>
        obtain ⟨rest, v3⟩ := p
        simp only [h3, Option.some.injEq, Prod.mk.injEq] at h
        exact ⟨k1, k2, rest, rfl, h2, by rw [← h.2]; exact h3, h.1.symm⟩

theorem pickPairs_length (n : Nat) :
    ∀ (v : Resources) (picks : List ResourceKey) (v' : Resources),
      pickPairs v n = some (picks, v') → picks.length = 2 * n := by
  induction n with
  | zero =>
    intro v picks v' h
    simp only [pickPairs] at h
    cases h
    rfl
  | succ n ih =>
    intro v picks v' h
    obtain ⟨k1, k2, rest, _, _, h3, hp⟩ := pickPairs_succ_inv h
    subst hp
    have := ih _ _ _ h3
    simp [List.length_cons, this]
    omega

theorem pickPairs_dec (n : Nat) :
    ∀ (v : Resources) (picks : List ResourceKey) (v' : Resources),
      pickPairs v n = some (picks, v') → ∀ k, v'.get k ≤ v.get k := by
  induction n with
  | zero =>
    intro v picks v' h
    simp only [pickPairs] at h
    cases h
    exact fun _ => le_rfl
  | succ n ih =>
    intro v picks v' h
    obtain ⟨k1, k2, rest, _, _, h3, hp⟩ := pickPairs_succ_inv h
    intro k
    exact le_trans (ih _ _ _ h3 k) (le_trans (get_dec_le _ k2 k) (get_dec_le _ k1 k))

theorem pickPairs_consume (n : Nat) :
    ∀ (pv rv : Resources) (picks : List ResourceKey) (pv' : Resources)
      (extra : List ResourceKey),
      Rle pv rv → pickPairs pv n = some (picks, pv') →
      ∃ rv', consumePairs rv (picks ++ extra) n = .ok (rv', extra) ∧ Rle pv' rv' ∧
        ∀ k, rv'.get k ≤ rv.get k := by
  induction n with
  | zero =>
    intro pv rv picks pv' extra hle h
    simp only [pickPairs] at h
    cases h
    exact ⟨rv, by simp [consumePairs], hle, fun _ => le_rfl⟩
  | succ n ih =>
    intro pv rv picks pv' extra hle h
    obtain ⟨k1, k2, rest, h1, h2, h3, hp⟩ := pickPairs_succ_inv h
    subst hp
    have hk1pos : 0 < pv.get k1 := pickOne_pos _ _ h1
    have hrv1pos : 0 < rv.get k1 := lt_of_lt_of_le hk1pos (hle k1)
    have hle1 : Rle (pv.set k1 (pv.get k1 - 1)) (rv.set k1 (rv.get k1 - 1)) :=
      Rle.dec hle k1
    have hk2pos : 0 < (pv.set k1 (pv.get k1 - 1)).get k2 := pickOne_pos _ _ h2
    have hrv2pos : 0 < (rv.set k1 (rv.get k1 - 1)).get k2 :=
      lt_of_lt_of_le hk2pos (hle1 k2)
    have hle2 : Rle ((pv.set k1 (pv.get k1 - 1)).set k2
        ((pv.set k1 (pv.get k1 - 1)).get k2 - 1))
        ((rv.set k1 (rv.get k1 - 1)).set k2
          ((rv.set k1 (rv.get k1 - 1)).get k2 - 1)) :=
      Rle.dec hle1 k2
    obtain ⟨rv', hcons, hle', hdec⟩ := ih _ _ _ _ extra hle2 h3
    refine ⟨rv', ?_, hle', ?_⟩
    · simp only [List.cons_append, consumePairs]
      have g1 : ¬ rv.get k1 ≤ 0 := by omega
      have g2 : ¬ (rv.set k1 (rv.get k1 - 1)).get k2 ≤ 0 := by omega
      simp [g1, g2, hcons]
    · intro k
      exact le_trans (hdec k) (le_trans (get_dec_le _ k2 k) (get_dec_le _ k1 k))

theorem Rle.trans {a b c : Resources} (h1 : Rle a b) (h2 : Rle b c) : Rle a c :=
  fun k => le_trans (h1 k) (h2 k)

theorem Rle.sub_direct {a b : Resources} (hle : Rle a b) (r : ResourceKey) (required : Int) :
    Rle (a.set r (a.get r - min (max 0 (a.get r)) required))
        (b.set r (b.get r - min (max 0 (b.get r)) required)) := by
  intro k
  rw [Resources.get_set, Resources.get_set]
  by_cases e : k = r
  · simp only [e, if_pos]
    have := hle r
    omega
  · simp only [e, if_neg, if_false]
    exact hle k

theorem Rle.add_at {a b : Resources} (hle : Rle a b) (r : ResourceKey) (v : Int) :
    Rle (a.set r (a.get r + v)) (b.set r (b.get r + v)) := by
  intro k
  rw [Resources.get_set, Resources.get_set]
  by_cases e : k = r
  · simp only [e, if_pos]
    have := hle r
    omega
  · simp only [e, if_neg, if_false]
    exact hle k

theorem Rle.add_right {a b : Resources} (hle : Rle a b) (r : ResourceKey) (v : Int)
    (hv : 0 ≤ v) : Rle a (b.set r (b.get r + v)) := by
  intro k
  rw [Resources.get_set]
  by_cases e : k = r
  · simp only [e, if_pos]
    have := hle r
    omega
  · simp only [e, if_neg, if_false]
    exact hle k

theorem planGo_cons_rank (v : Resources) (e : Effect) (rest : List Effect)
    (he : e.resource = .rank) : planGo v (e :: rest) = planGo v rest := by
  rw [planGo, he]

theorem planGo_cons_pos (v : Resources) (e : Effect) (rest : List Effect) (r : ResourceKey)
    (he : e.resource = .res r) (hv : 0 ≤ e.value) :
    planGo v (e :: rest) = planGo v rest := by
  simp [planGo, he, hv]

theorem costGo_cons_rank (v : Resources) (e : Effect) (rest : List Effect)
    (he : e.resource = .rank) : costGo v (e :: rest) = costGo v rest := by
  rw [costGo, he]

theorem costGo_cons_pos (v : Resources) (e : Effect) (rest : List Effect) (r : ResourceKey)
    (he : e.resource = .res r) (hv : 0 ≤ e.value) :
    costGo v (e :: rest) = costGo (v.set r (v.get r + e.value)) rest := by
  simp [costGo, he, hv]

theorem costGo_cons_neg (v : Resources) (e : Effect) (rest : List Effect) (r : ResourceKey)
    (he : e.resource = .res r) (hv : ¬ 0 ≤ e.value) :
    costGo v (e :: rest) =
      costGo (v.set r (v.get r - min (max 0 (v.get r)) (-e.value))) rest +
        2 * (-e.value - min (max 0 (v.get r)) (-e.value)) := by
  simp [costGo, he, hv]

theorem applyGo_cons_rank (res : Resources) (repl : List ResourceKey) (e : Effect)
    (rest : List Effect) (he : e.resource = .rank) :
    applyGo res repl (e :: rest) = applyGo res repl rest := by
  rw [applyGo, he]

theorem applyGo_cons_pos (res : Resources) (repl : List ResourceKey) (e : Effect)
    (rest : List Effect) (r : ResourceKey) (he : e.resource = .res r)
    (hv : ¬ e.value < 0) :
    applyGo res repl (e :: rest) = applyGo (res.set r (res.get r + e.value)) repl rest := by
  simp [applyGo, he, hv]

theorem applyGo_cons_neg_ok (res res2 : Resources) (repl repl2 : List ResourceKey)
    (e : Effect) (rest : List Effect) (r : ResourceKey) (he : e.resource = .res r)
    (hv : e.value < 0)
    (hc : consumePairs (res.set r (res.get r - min (max 0 (res.get r)) (-e.value))) repl
      (-e.value - min (max 0 (res.get r)) (-e.value)).toNat = .ok (res2, repl2)) :
    applyGo res repl (e :: rest) = applyGo res2 repl2 rest := by
  simp [applyGo, he, hv, hc]

theorem applyGo_cons_neg_err (res res2 : Resources) (repl : List ResourceKey)
    (e : Effect) (rest : List Effect) (r : ResourceKey) (he : e.resource = .res r)
    (hv : e.value < 0)
    (hc : consumePairs (res.set r (res.get r - min (max 0 (res.get r)) (-e.value))) repl
      (-e.value - min (max 0 (res.get r)) (-e.value)).toNat = .error res2) :
    applyGo res repl (e :: rest) = .error res2 := by
  simp [applyGo, he, hv, hc]

theorem planGo_neg_inv {v : Resources} {e : Effect} {rest : List Effect} {r : ResourceKey}
    {out : List ResourceKey} (hr : e.resource = .res r) (hv : ¬ 0 ≤ e.value)
    (h : planGo v (e :: rest) = some out) :
    ∃ picks v2 more,
      pickPairs (v.set r (v.get r - min (max 0 (v.get r)) (-e.value)))
        (-e.value - min (max 0 (v.get r)) (-e.value)).toNat = some (picks, v2) ∧
      planGo v2 rest = some more ∧ out = picks ++ more := by
  rw [planGo, hr] at h
  simp only [hv, if_false] at h
  cases hp : pickPairs (v.set r (v.get r - min (max 0 (v.get r)) (-e.value)))
      (-e.value - min (max 0 (v.get r)) (-e.value)).toNat with
  | none => simp [hp] at h
  | some p =>
    obtain ⟨picks, v2⟩ := p
    simp only [hp] at h
    cases hm : planGo v2 rest with
    | none => simp [hm] at h
    | some more =>
      simp only [hm, Option.some.injEq] at h
      exact ⟨picks, v2, more, rfl, hm, h.symm⟩

theorem planGo_cost_le (effects : List Effect) :
    ∀ (pv cv : Resources) (picks : List ResourceKey),
      Rle pv cv → planGo pv effects = some picks →
      costGo cv effects ≤ (picks.length : Int) := by
  induction effects with
  | nil =>
    intro pv cv picks _ h
    simp only [planGo] at h
    cases h
    simp [costGo]
  | cons e rest ih =>
    intro pv cv picks hle h
    match he : e.resource with
    | .rank =>
      rw [planGo_cons_rank _ _ _ he] at h
      rw [costGo_cons_rank _ _ _ he]
      exact ih pv cv picks hle h
    | .res r =>
      by_cases hv : 0 ≤ e.value
      · rw [planGo_cons_pos _ _ _ _ he hv] at h
        rw [costGo_cons_pos _ _ _ _ he hv]
        exact ih pv _ picks (Rle.add_right hle r e.value hv) h
      · obtain ⟨picksH, pv2, more, hp, hm, hout⟩ := planGo_neg_inv he hv h
        subst hout
        rw [costGo_cons_neg _ _ _ _ he hv]
        have hlenH := pickPairs_length _ _ _ _ hp
        have hdec := pickPairs_dec _ _ _ _ hp
        have hle1 : Rle (pv.set r (pv.get r - min (max 0 (pv.get r)) (-e.value)))
            (cv.set r (cv.get r - min (max 0 (cv.get r)) (-e.value))) :=
          Rle.sub_direct hle r (-e.value)
        have hle2 : Rle pv2 (cv.set r (cv.get r - min (max 0 (cv.get r)) (-e.value))) :=
          Rle.trans hdec hle1
        have hIH := ih pv2 _ more hle2 hm
        have hreq : 0 < -e.value := by omega
        have hdp : min (max 0 (pv.get r)) (-e.value) ≤ -e.value := min_le_right _ _
        have hdd : min (max 0 (pv.get r)) (-e.value) ≤ min (max 0 (cv.get r)) (-e.value) := by
          have := hle r
          omega
        have hcast : ((-e.value - min (max 0 (pv.get r)) (-e.value)).toNat : Int) =
            -e.value - min (max 0 (pv.get r)) (-e.value) := by omega
        have hlen' : ((picksH ++ more).length : Int) = (picksH.length : Int) + more.length := by
          simp
        omega

theorem planGo_exact_strict (effects : List Effect) :
    ∀ (pv cv rv : Resources) (picks extra : List ResourceKey),
      Rle pv cv → Rle pv rv → Rle rv cv →
      planGo pv effects = some picks →
      (picks.length : Int) = costGo cv effects →
      ∃ rv', applyGo rv (picks ++ extra) effects = .ok (rv', extra) := by
  induction effects with
  | nil =>
    intro pv cv rv picks extra _ _ _ h _
    simp only [planGo] at h
    cases h
    exact ⟨rv, by simp [applyGo]⟩
  | cons e rest ih =>
    intro pv cv rv picks extra hpc hpr hrc h hlen
    match he : e.resource with
    | .rank =>
      rw [planGo_cons_rank _ _ _ he] at h
      rw [costGo_cons_rank _ _ _ he] at hlen
      obtain ⟨rv', happ⟩ := ih pv cv rv picks extra hpc hpr hrc h hlen
      exact ⟨rv', by rw [applyGo_cons_rank _ _ _ _ he]; exact happ⟩
    | .res r =>
      by_cases hv : 0 ≤ e.value
      · rw [planGo_cons_pos _ _ _ _ he hv] at h
        rw [costGo_cons_pos _ _ _ _ he hv] at hlen
        have hnneg : ¬ e.value < 0 := by omega
        obtain ⟨rv', happ⟩ := ih pv (cv.set r (cv.get r + e.value))
          (rv.set r (rv.get r + e.value)) picks extra
          (Rle.add_right hpc r e.value hv) (Rle.add_right hpr r e.value hv)
          (Rle.add_at hrc r e.value) h hlen
        exact ⟨rv', by rw [applyGo_cons_pos _ _ _ _ _ he hnneg]; exact happ⟩
      · obtain ⟨picksH, pv2, more, hp, hm, hout⟩ := planGo_neg_inv he hv h
        subst hout
        rw [costGo_cons_neg _ _ _ _ he hv] at hlen
        have hlenH := pickPairs_length _ _ _ _ hp
        have hdecP := pickPairs_dec _ _ _ _ hp
        -- the three pairwise pointwise bounds after the direct payment
        have hle_pc1 := Rle.sub_direct hpc r (-e.value)
        have hle_pr1 := Rle.sub_direct hpr r (-e.value)
        have hle_rc1 := Rle.sub_direct hrc r (-e.value)
        -- shortfalls: cost ≤ real ≤ planner, and the length equation forces
        -- them all equal
        have hloA := planGo_cost_le rest pv2 _ more (Rle.trans hdecP hle_pc1) hm
        have hdpr : min (max 0 (pv.get r)) (-e.value) ≤ min (max 0 (rv.get r)) (-e.value) := by
          have := hpr r
          omega
        have hdrc : min (max 0 (rv.get r)) (-e.value) ≤ min (max 0 (cv.get r)) (-e.value) := by
          have := hrc r
          omega
        have hdp_le : min (max 0 (pv.get r)) (-e.value) ≤ -e.value := min_le_right _ _
        have hcastP : ((-e.value - min (max 0 (pv.get r)) (-e.value)).toNat : Int) =
            -e.value - min (max 0 (pv.get r)) (-e.value) := by omega
        have hlen' : ((picksH ++ more).length : Int) = (picksH.length : Int) + more.length := by
          simp
        -- equal shortfalls hence equal directs
        have hdirEq : min (max 0 (pv.get r)) (-e.value) = min (max 0 (rv.get r)) (-e.value) := by
          omega
        have hmoreEq : (more.length : Int) = costGo
            (cv.set r (cv.get r - min (max 0 (cv.get r)) (-e.value))) rest := by
          omega
        -- consume the planner's picks against the real vector
        obtain ⟨rv2, hcons, hle_pr2, hdecR⟩ := pickPairs_consume _ _ _ picksH pv2
          (more ++ extra) hle_pr1 hp
        -- recurse on the tail
        obtain ⟨rv', happ⟩ := ih pv2 (cv.set r (cv.get r - min (max 0 (cv.get r)) (-e.value)))
          rv2 more extra (Rle.trans hdecP hle_pc1) hle_pr2
          (Rle.trans hdecR hle_rc1) hm hmoreEq
        refine ⟨rv', ?_⟩
        have hnneg : e.value < 0 := by omega
        have hconsR : consumePairs
            (rv.set r (rv.get r - min (max 0 (rv.get r)) (-e.value)))
            ((picksH ++ more) ++ extra)
            (-e.value - min (max 0 (rv.get r)) (-e.value)).toNat =
            .ok (rv2, more ++ extra) := by
          rw [List.append_assoc]
          rw [show (-e.value - min (max 0 (rv.get r)) (-e.value)).toNat =
              (-e.value - min (max 0 (pv.get r)) (-e.value)).toNat by rw [← hdirEq]]
          exact hcons
        rw [applyGo_cons_neg_ok _ _ _ _ _ _ _ he hnneg hconsR]
        exact happ

theorem pickOne_none_iff (v : Resources) :
    pickOne v = none ↔ ∀ k, v.get k ≤ 0 := by
  have hperm : List.Perm (sortByDesc (fun k => v.get k) resourceKeys) resourceKeys := by
    rw [sortByDesc]
    exact List.perm_insertionSort _ _
  constructor
  · intro h k
    rw [pickOne, List.find?_eq_none] at h
    have hmem : k ∈ sortByDesc (fun k => v.get k) resourceKeys := by
      rw [hperm.mem_iff]
      cases k <;> decide
    have hk := h k hmem
    simp at hk
    exact hk
  · intro h
    rw [pickOne, List.find?_eq_none]
    intro k _
    simpa using h k

theorem pickPairs_none_trace :
    ∀ (n : Nat) (v : Resources), pickPairs v n = none →
      ∃ u ∈ pickTrace v n, pickOne u = none := by
  intro n
  induction n with
  | zero =>
    intro v h
    simp [pickPairs] at h
  | succ n ih =>
    intro v h
    rw [pickPairs] at h
    rw [pickTrace]
    cases h1 : pickOne v with
    | none =>
      dsimp only
      exact ⟨v, List.mem_cons_self _ _, h1⟩
    | some k1 =>
      simp only [h1] at h
      dsimp only
      cases h2 : pickOne (v.set k1 (v.get k1 - 1)) with
      | none =>
        dsimp only
        exact ⟨_, List.mem_cons_of_mem _ (List.mem_cons_self _ _), h2⟩
      | some k2 =>
        simp only [h2] at h
        dsimp only
        cases h3 : pickPairs ((v.set k1 (v.get k1 - 1)).set k2
            ((v.set k1 (v.get k1 - 1)).get k2 - 1)) n with
        | none =>
          obtain ⟨u, hu, hnone⟩ := ih _ h3
          exact ⟨u, List.mem_cons_of_mem _ (List.mem_cons_of_mem _ hu), hnone⟩
        | some pr =>
          obtain ⟨rest, v3⟩ := pr
          simp only [h3] at h
          cases h

theorem planGo_none_trace :
    ∀ (effects : List Effect) (v : Resources), planGo v effects = none →
      ∃ u ∈ planTrace v effects, pickOne u = none := by
  intro effects
  induction effects with
  | nil =>
    intro v h
    simp [planGo] at h
  | cons e rest ih =>
    intro v h
    rw [planGo] at h
    rw [planTrace]
    cases her : e.resource with
    | rank =>
      simp only [her] at h
      dsimp only
      exact ih v h
    | res r =>
      simp only [her] at h
      dsimp only
      by_cases hpos : 0 ≤ e.value
      · rw [if_pos hpos] at h ⊢
        exact ih v h
      · rw [if_neg hpos] at h ⊢
        cases hpp : pickPairs (v.set r (v.get r - min (max 0 (v.get r)) (-e.value)))
            (-e.value - min (max 0 (v.get r)) (-e.value)).toNat with
        | none =>
          simp only [hpp]
          obtain ⟨u, hu, hnone⟩ := pickPairs_none_trace _ _ hpp
          exact ⟨u, List.mem_append.mpr (Or.inl hu), hnone⟩
        | some pr =>
          obtain ⟨picks, v2⟩ := pr
          simp only [hpp] at h ⊢
          cases hpg : planGo v2 rest with
          | none =>
            obtain ⟨u, hu, hnone⟩ := ih v2 hpg
            exact ⟨u, List.mem_append.mpr (Or.inr hu), hnone⟩
          | some more =>
            simp only [hpg] at h
            cases h

/-- C4 (amended) — a plan returned by the planner is accepted by strict
application exactly when its length equals `replacementCostUnits` for the
same inputs (the planner ignores positive effects and its picks drain
resources later negative effects draw on, so longer plans exist and are
rejected by the length precheck, upon which soft application falls back);
and the planner returns no plan only when at some pick point of its walk no
resource has a positive virtual balance to offer. -/
theorem c4_plan_valid_iff_length (activeRanks : List Rank) (G : GameState) (pid : String)
    (effects : List Effect) :
    (∀ picks, planReplacementResources (G.resources pid) effects = some picks →
      ((applyCardEffects activeRanks G pid effects picks).isOk = true ↔
        (picks.length : Int) = replacementCostUnits (G.resources pid) effects))
    ∧ (planReplacementResources (G.resources pid) effects = none →
        ∃ u ∈ planTrace (G.resources pid) effects,
          pickOne u = none ∧ ∀ k, u.get k ≤ 0) := by
  constructor
  · intro picks hplan
    by_cases hemp : effects.isEmpty
    · have he : effects = [] := List.isEmpty_iff.mp hemp
      subst he
      simp only [planReplacementResources, List.isEmpty_nil, if_true,
        Option.some.injEq] at hplan
      subst hplan
      simp [applyCardEffects, replacementCostUnits, StrictOutcome.isOk]
    · constructor
      · intro hok
        simp only [applyCardEffects, hemp, if_false] at hok
        by_cases hlen : (picks.length : Int) ≠ replacementCostUnits (G.resources pid) effects
        · simp [hlen, StrictOutcome.isOk] at hok
        · push_neg at hlen
          exact hlen
      · intro hlen
        have hplan' : planGo (G.resources pid) effects = some picks := by
          simpa [planReplacementResources, hemp] using hplan
        have hcost : replacementCostUnits (G.resources pid) effects =
            costGo (G.resources pid) effects := by
          simp [replacementCostUnits, hemp]
        obtain ⟨rv', happ⟩ := planGo_exact_strict effects (G.resources pid) (G.resources pid)
          (G.resources pid) picks [] (Rle.refl _) (Rle.refl _) (Rle.refl _) hplan'
          (by rw [hlen, hcost])
        rw [List.append_nil] at happ
        simp [applyCardEffects, hemp, hlen, happ, StrictOutcome.isOk]
  · intro hnone
    by_cases hemp : effects.isEmpty
    · rw [planReplacementResources, if_pos hemp] at hnone
      cases hnone
    · have hgo : planGo (G.resources pid) effects = none := by
        simpa [planReplacementResources, hemp] using hnone
      obtain ⟨u, hu, hnone'⟩ := planGo_none_trace effects (G.resources pid) hgo
      exact ⟨u, hu, hnone', (pickOne_none_iff u).mp hnone'⟩

/-- C4 counterexample — resources `(0,4,0,0,0)` and effects
`[time +2, time −2]`: the cost walk credits the `+2` so
`replacementCostUnits = 0`, but the planner ignores it and returns the plan
`[reputation ×4]`, which strict application rejects (length 4 ≠ 0), so no
"soft application takes the strict path" here despite a plan existing. -/
theorem c4_counterexample :
    planReplacementResources ((fixtureG ⟨0, 4, 0, 0, 0⟩ "cadet").resources "0")
      [⟨.res .time, 2⟩, ⟨.res .time, -2⟩] =
      some [ResourceKey.reputation, ResourceKey.reputation, ResourceKey.reputation,
        ResourceKey.reputation]
    ∧ replacementCostUnits ((fixtureG ⟨0, 4, 0, 0, 0⟩ "cadet").resources "0")
        [⟨.res .time, 2⟩, ⟨.res .time, -2⟩] = 0
    ∧ (applyCardEffects baseRanks (fixtureG ⟨0, 4, 0, 0, 0⟩ "cadet") "0"
        [⟨.res .time, 2⟩, ⟨.res .time, -2⟩]
        [ResourceKey.reputation, ResourceKey.reputation, ResourceKey.reputation,
          ResourceKey.reputation]).isOk = false :=
  ⟨by decide, by decide, by decide⟩

/-- C4 witness — at resources `(1,1,0,0,0)` with the single `discipline −1`
effect the planner's plan `[time, reputation]` has length 2 = cost and the
theorem yields that strict application accepts it; at all-zero resources
with `time −1` the planner returns no plan, and the theorem exhibits a
reached pick point with no positive resource on offer. -/
theorem c4_witness :
    (applyCardEffects baseRanks (fixtureG ⟨1, 1, 0, 0, 0⟩ "cadet") "0"
      [⟨.res .discipline, -1⟩] [ResourceKey.time, ResourceKey.reputation]).isOk = true
    ∧ ∃ u ∈ planTrace ((fixtureG ⟨0, 0, 0, 0, 0⟩ "cadet").resources "0")
        [⟨.res .time, -1⟩], pickOne u = none ∧ ∀ k, u.get k ≤ 0 :=
  ⟨((c4_plan_valid_iff_length baseRanks (fixtureG ⟨1, 1, 0, 0, 0⟩ "cadet") "0"
      [⟨.res .discipline, -1⟩]).1 [ResourceKey.time, ResourceKey.reputation]
      (by decide)).mpr (by decide),
    (c4_plan_valid_iff_length baseRanks (fixtureG ⟨0, 0, 0, 0, 0⟩ "cadet") "0"
      [⟨.res .time, -1⟩]).2 (by decide)⟩

/-- A strict application run on a planner-produced plan never throws: it is
either accepted (length = cost, by the alignment of the three walks) or
rejected up front by the length precheck, before any mutation. Hence the
`catch`-with-partial-mutation branch inside soft application is dead code. -/
theorem plan_strict_no_throw (activeRanks : List Rank) (G : GameState) (pid : String)
    (effects : List Effect) (picks : List ResourceKey)
    (hplan : planReplacementResources (G.resources pid) effects = some picks) :
    ∀ G1, applyCardEffects activeRanks G pid effects picks ≠ .thrown G1 := by
  intro G1
  by_cases hemp : effects.isEmpty
  · simp [applyCardEffects, hemp]
  · have hplan' : planGo (G.resources pid) effects = some picks := by
      simpa [planReplacementResources, hemp] using hplan
    by_cases hlen : (picks.length : Int) = replacementCostUnits (G.resources pid) effects
    · have hcost : replacementCostUnits (G.resources pid) effects =
          costGo (G.resources pid) effects := by
        simp [replacementCostUnits, hemp]
      obtain ⟨rv', happ⟩ := planGo_exact_strict effects (G.resources pid) (G.resources pid)
        (G.resources pid) picks [] (Rle.refl _) (Rle.refl _) (Rle.refl _) hplan'
        (by rw [hlen, hcost])
      rw [List.append_nil] at happ
      simp [applyCardEffects, hemp, hlen, happ]
    · simp [applyCardEffects, hemp, hlen]

/-! ## Soft application's summary (claim C5) -/

theorem shiftRankG_resources (activeRanks : List Rank) (G : GameState) (pid : String)
    (delta : Int) : (shiftRankG activeRanks G pid delta).resources = G.resources := by
  simp only [shiftRankG]
  split
  · rfl
  · split <;> rfl

theorem softRankFold_resources (activeRanks : List Rank) (pid : String)
    (effects : List Effect) :
    ∀ acc : GameState × Int,
      (effects.foldl (softRankStep activeRanks pid) acc).1.resources = acc.1.resources := by
  induction effects with
  | nil => intro acc; rfl
  | cons e rest ih =>
    intro acc
    rw [List.foldl_cons]
    rw [ih]
    cases he : e.resource with
    | rank => simp [softRankStep, he, shiftRankG_resources]
    | res r => simp [softRankStep, he]

theorem softResFold_diff (effects : List Effect) :
    ∀ (res : Resources) (sm : ResourceKey → Int),
      (∀ k, 0 ≤ res.get k) →
      (∀ k, 0 ≤ (effects.foldl softResStep (res, sm)).1.get k) ∧
      (∀ k, (effects.foldl softResStep (res, sm)).2 k - sm k =
        (effects.foldl softResStep (res, sm)).1.get k - res.get k) := by
  induction effects with
  | nil =>
    intro res sm h
    exact ⟨h, fun k => by simp⟩
  | cons e rest ih =>
    intro res sm h
    rw [List.foldl_cons]
    cases he : e.resource with
    | rank =>
      have hstep : softResStep (res, sm) e = (res, sm) := by
        simp [softResStep, he]
      rw [hstep]
      exact ih res sm h
    | res r =>
      by_cases hv : e.value < 0
      · have hstep : softResStep (res, sm) e =
            (res.set r (max 0 (res.get r + e.value)),
             fun k => if k = r then sm k + (max 0 (res.get r + e.value) - res.get r)
               else sm k) := by
          simp [softResStep, he, hv]
        rw [hstep]
        have hres' : ∀ k, 0 ≤ (res.set r (max 0 (res.get r + e.value))).get k := by
          intro k
          rw [Resources.get_set]
          by_cases ek : k = r
          · simp only [ek, if_pos]
            exact le_max_left _ _
          · simp only [ek, if_neg, if_false]
            exact h k
        obtain ⟨h1, h2⟩ := ih _ _ hres'
        refine ⟨h1, fun k => ?_⟩
        have hk := h2 k
        simp only [] at hk
        have hδ : (if k = r then sm k + (max 0 (res.get r + e.value) - res.get r)
              else sm k) - sm k =
            (res.set r (max 0 (res.get r + e.value))).get k - res.get k := by
          rw [Resources.get_set]
          by_cases ek : k = r
          · simp only [ek, if_pos]
            omega
          · simp only [ek, if_neg, if_false]
            omega
        omega
      · have hstep : softResStep (res, sm) e =
            (res.set r (res.get r + e.value),
             fun k => if k = r then sm k + e.value else sm k) := by
          simp [softResStep, he, hv]
        rw [hstep]
        have hres' : ∀ k, 0 ≤ (res.set r (res.get r + e.value)).get k := by
          intro k
          rw [Resources.get_set]
          by_cases ek : k = r
          · simp only [ek, if_pos]
            have := h r
            omega
          · simp only [ek, if_neg, if_false]
            exact h k
        obtain ⟨h1, h2⟩ := ih _ _ hres'
        refine ⟨h1, fun k => ?_⟩
        have hk := h2 k
        simp only [] at hk
        have hδ : (if k = r then sm k + e.value else sm k) - sm k =
            (res.set r (res.get r + e.value)).get k - res.get k := by
          rw [Resources.get_set]
          by_cases ek : k = r
          · simp only [ek, if_pos]
            omega
          · simp only [ek, if_neg, if_false]
            omega
        omega

theorem clamp_eq_self {r : Resources} (h : ∀ k, 0 ≤ r.get k) :
    clampNonNegativeResources r = r := by
  obtain ⟨a, b, c, d, e⟩ := r
  have ha := h .time
  have hb := h .reputation
  have hc := h .discipline
  have hd := h .documents
  have he := h .tech
  simp only [Resources.get] at ha hb hc hd he
  simp only [clampNonNegativeResources, Resources.mk.injEq]
  refine ⟨?_, ?_, ?_, ?_, ?_⟩ <;> omega

theorem summarizeAppliedDiff_resources (activeRanks : List Rank) (b a : Resources)
    (br ar : String) (k : ResourceKey) :
    (summarizeAppliedDiff activeRanks b a br ar).resources k = a.get k - b.get k := by
  simp only [summarizeAppliedDiff]
  split <;> rfl

theorem softFallback_summary_resources (activeRanks : List Rank) (G : GameState)
    (pid : String) (effects : List Effect)
    (hnn : ∀ k, 0 ≤ (G.resources pid).get k) (k : ResourceKey) :
    (softFallback activeRanks G pid effects).2.resources k =
      ((softFallback activeRanks G pid effects).1.resources pid).get k -
        (G.resources pid).get k := by
  obtain ⟨hpos, hdiff⟩ := softResFold_diff effects (G.resources pid) (fun _ => 0) hnn
  have hk := hdiff k
  simp only [softFallback]
  have hrank := softRankFold_resources activeRanks pid effects
    (G.setResources pid (effects.foldl softResStep (G.resources pid, fun _ => 0)).1, 0)
  rw [hrank]
  simp only [GameState.setResources, updMap]
  simp only [if_pos]
  rw [clamp_eq_self hpos]
  omega

/-- C5 (amended core) — soft application (which by construction always
returns a summary) reports per-resource deltas that equal the before/after
difference of the target's actual resource vector, for any starting vector
respecting the non-negativity invariant. (The rank component is the actual
ladder-index delta on the strict path, but the nominal sum of rank effect
values on the clamping fallback path, where it can differ from the actual
clamped delta — see the counterexample.) -/
theorem c5_soft_summary_is_diff (activeRanks : List Rank) (G : GameState) (pid : String)
    (effects : List Effect) (hnn : ∀ k, 0 ≤ (G.resources pid).get k) (k : ResourceKey) :
    (applyCardEffectsSoft activeRanks G pid effects).2.resources k =
      ((applyCardEffectsSoft activeRanks G pid effects).1.resources pid).get k -
        (G.resources pid).get k := by
  by_cases hemp : effects.isEmpty
  · simp [applyCardEffectsSoft, hemp]
  · unfold applyCardEffectsSoft
    rw [if_neg hemp]
    cases hplan : planReplacementResources (G.resources pid) effects with
    | none =>
      exact softFallback_summary_resources activeRanks G pid effects hnn k
    | some picks =>
      cases hap : applyCardEffects activeRanks G pid effects picks with
      | ok G1 =>
        simp only [hap, summarizeAppliedDiff_resources]
      | rejected =>
        simp only [hap]
        exact softFallback_summary_resources activeRanks G pid effects hnn k
      | thrown G1 =>
        exact absurd hap (plan_strict_no_throw activeRanks G pid effects picks hplan G1)

/-- C5 counterexample — all-zero resources at the top rank with effects
`[time −1, rank +1]`: the planner finds no plan, the fallback path runs, the
rank stays `general` (actual ladder delta 0), yet the summary reports the
nominal rank delta `+1` instead of the actual clamped delta. -/
theorem c5_counterexample :
    (applyCardEffectsSoft baseRanks (fixtureG ⟨0, 0, 0, 0, 0⟩ "general") "0"
      [⟨.res .time, -1⟩, ⟨.rank, 1⟩]).2.rank = 1
    ∧ (applyCardEffectsSoft baseRanks (fixtureG ⟨0, 0, 0, 0, 0⟩ "general") "0"
        [⟨.res .time, -1⟩, ⟨.rank, 1⟩]).1.ranks "0" = "general"
    ∧ (fixtureG ⟨0, 0, 0, 0, 0⟩ "general").ranks "0" = "general" :=
  ⟨by decide, by decide, by decide⟩

/-- C5 witness — the summary of a soft `discipline −3` on the starting
vector reports the actually applied `−2` on discipline (clamped at zero), not the
nominal `−3`. -/
theorem c5_witness :
    (applyCardEffectsSoft baseRanks (fixtureG ⟨0, 0, 2, 0, 0⟩ "cadet") "0"
      [⟨.res .discipline, -3⟩]).2.resources ResourceKey.discipline =
      ((applyCardEffectsSoft baseRanks (fixtureG ⟨0, 0, 2, 0, 0⟩ "cadet") "0"
        [⟨.res .discipline, -3⟩]).1.resources "0").get ResourceKey.discipline -
        ((fixtureG ⟨0, 0, 2, 0, 0⟩ "cadet").resources "0").get ResourceKey.discipline :=
  c5_soft_summary_is_diff baseRanks (fixtureG ⟨0, 0, 2, 0, 0⟩ "cadet") "0"
    [⟨.res .discipline, -3⟩] (fun k => by cases k <;> decide) ResourceKey.discipline

/-! ## The drawCard move (claim C6) -/

/-- C6 — `drawCard` is rejected exactly when the caller is not the active
player, is not in the `draw` stage, or is at the hand limit before the
draw; an accepted draw of the deck's top card dispatches by category:
LYAP soft-applies to the drawer, discards, stage `end`; SCANDAL
soft-applies to every player at the table in order (drawer included),
discards, stage `end`; anything else joins the hand, stage `play`. -/
theorem c6_drawCard_dispatch (activeRanks : List Rank) (s : MatchState) (pid : String) :
    (drawCardMove activeRanks s pid = none ↔
      (pid ≠ s.currentPlayer ∨ s.stages pid ≠ Stage.draw ∨
        HAND_LIMIT ≤ (s.G.hands pid).length))
    ∧ ∀ deckRest card, s.G.deck = deckRest ++ [card] →
        pid = s.currentPlayer → s.stages pid = Stage.draw →
        (s.G.hands pid).length < HAND_LIMIT →
        ((card.category = CardCategory.LYAP →
          drawCardMove activeRanks s pid = some { s with
            G := { ((applyCardEffectsSoft activeRanks { s.G with deck := deckRest } pid
                card.effects).1) with
              discard := ((applyCardEffectsSoft activeRanks { s.G with deck := deckRest }
                pid card.effects).1).discard ++ [card] },
            stages := updMap s.stages pid Stage.done })
        ∧ (card.category = CardCategory.SCANDAL →
          drawCardMove activeRanks s pid = some { s with
            G := { (s.G.playerOrder.foldl
                (fun g p => (applyCardEffectsSoft activeRanks g p card.effects).1)
                { s.G with deck := deckRest }) with
              discard := (s.G.playerOrder.foldl
                (fun g p => (applyCardEffectsSoft activeRanks g p card.effects).1)
                { s.G with deck := deckRest }).discard ++ [card] },
            stages := updMap s.stages pid Stage.done })
        ∧ (card.category ≠ CardCategory.LYAP → card.category ≠ CardCategory.SCANDAL →
          drawCardMove activeRanks s pid = some { s with
            G := { s.G with
              deck := deckRest,
              hands := updMap s.G.hands pid (s.G.hands pid ++ [card]) },
            stages := updMap s.stages pid Stage.play })) := by
  constructor
  · constructor
    · intro h
      by_contra hc
      push_neg at hc
      obtain ⟨h1, h2, h3⟩ := hc
      have g1 : ¬ pid ≠ s.currentPlayer := not_not_intro h1
      have g2 : ¬ s.stages pid ≠ Stage.draw := not_not_intro h2
      have g3 : ¬ HAND_LIMIT ≤ (s.G.hands pid).length := by omega
      unfold drawCardMove at h
      rw [if_neg g1, if_neg g2, if_neg g3] at h
      cases hdeck : s.G.deck.getLast? with
      | none => simp [hdeck] at h
      | some card =>
        simp only [hdeck] at h
        by_cases hc1 : card.category = CardCategory.LYAP
        · simp [hc1] at h
        · by_cases hc2 : card.category = CardCategory.SCANDAL
          · simp [hc1, hc2] at h
          · simp [hc1, hc2] at h
    · intro h
      unfold drawCardMove
      split_ifs with g1 g2 g3
      · rfl
      · rfl
      · rfl
      · exfalso
        rcases h with h | h | h
        · exact g1 h
        · exact g2 h
        · exact g3 h
  · intro deckRest card hdeck h1 h2 h3
    have g1 : ¬ pid ≠ s.currentPlayer := not_not_intro h1
    have g2 : ¬ s.stages pid ≠ Stage.draw := not_not_intro h2
    have g3 : ¬ HAND_LIMIT ≤ (s.G.hands pid).length := by omega
    have hlast : s.G.deck.getLast? = some card := by
      rw [hdeck, List.getLast?_concat]
    have hdrop : s.G.deck.dropLast = deckRest := by
      rw [hdeck, List.dropLast_concat]
    refine ⟨?_, ?_, ?_⟩
    · intro hcat
      unfold drawCardMove
      rw [if_neg g1, if_neg g2, if_neg g3]
      simp only [hlast, hdrop]
      rw [if_pos hcat]
    · intro hcat
      have hne : card.category ≠ CardCategory.LYAP := by
        rw [hcat]; intro hh; cases hh
      unfold drawCardMove
      rw [if_neg g1, if_neg g2, if_neg g3]
      simp only [hlast, hdrop]
      rw [if_neg hne, if_pos hcat]
    · intro hc1 hc2
      unfold drawCardMove
      rw [if_neg g1, if_neg g2, if_neg g3]
      simp only [hlast, hdrop]
      rw [if_neg hc1, if_neg hc2]

/-- C6 witness — drawing the single NEUTRAL card from a concrete state: the
card joins the hand and the drawer moves to `play`. -/
theorem c6_witness :
    drawCardMove baseRanks drawFixture "0" =
      some { drawFixture with
        G := { drawFixture.G with
          deck := [],
          hands := updMap drawFixture.G.hands "0" (drawFixture.G.hands "0" ++ [neutralCard]) },
        stages := updMap drawFixture.stages "0" Stage.play } :=
  ((c6_drawCard_dispatch baseRanks drawFixture "0").2
    [] neutralCard rfl rfl (by decide) (by decide)).2.2 (by decide) (by decide)

/-! ## The promote move (claim C7) -/

theorem promoteRank_some_iff (activeRanks : List Rank) (G : GameState) (pid : String)
    (playerCount : Nat) :
    (promoteRank activeRanks G pid playerCount).isSome = true ↔
      ∃ nextRank, activeRanks.get? (findRankIdx activeRanks (G.ranks pid) + 1) =
          some nextRank ∧
        (G.playerOrder.filter (fun p => p ≠ pid ∧ G.ranks p = nextRank.id)).length <
          rankSeatLimit playerCount ∧
        hasResources (G.resources pid) nextRank.requirement = true ∧
        hasResources (G.resources pid) nextRank.cost = true := by
  simp only [promoteRank]
  cases hnext : activeRanks.get? (findRankIdx activeRanks (G.ranks pid) + 1) with
  | none =>
    constructor
    · intro h
      simp at h
    · rintro ⟨nr, hnr, _⟩
      cases hnr
  | some nextRank =>
    dsimp only
    split_ifs with ho hr hc
    · -- seat limit reached
      constructor
      · intro h
        simp at h
      · rintro ⟨nr, hnr, hlt, _⟩
        injection hnr with hnr
        subst hnr
        exfalso
        omega
    · -- all checks pass
      constructor
      · intro _
        exact ⟨nextRank, rfl, by omega, hr, hc⟩
      · intro _
        simp
    · -- cost not affordable
      constructor
      · intro h
        simp at h
      · rintro ⟨nr, hnr, _, _, hcost2⟩
        injection hnr with hnr
        subst hnr
        exact absurd hcost2 hc
    · -- requirement not met
      constructor
      · intro h
        simp at h
      · rintro ⟨nr, hnr, _, hreq2, _⟩
        injection hnr with hnr
        subst hnr
        exact absurd hreq2 hr

theorem promoteRank_some_eq (activeRanks : List Rank) (G : GameState) (pid : String)
    (playerCount : Nat) (G1 : GameState)
    (h : promoteRank activeRanks G pid playerCount = some G1) :
    ∃ nextRank, activeRanks.get? (findRankIdx activeRanks (G.ranks pid) + 1) =
        some nextRank ∧
      G1 = { G with
        resources := updMap G.resources pid (clampNonNegativeResources
          (applyResourceDelta (spendResources (G.resources pid) nextRank.cost)
            nextRank.bonus)),
        ranks := updMap G.ranks pid nextRank.id } := by
  simp only [promoteRank] at h
  cases hnext : activeRanks.get? (findRankIdx activeRanks (G.ranks pid) + 1) with
  | none => rw [hnext] at h; cases h
  | some nextRank =>
    rw [hnext] at h
    dsimp only at h
    split_ifs at h
    injection h with h
    exact ⟨nextRank, rfl, h.symm⟩

/-- C7 — `promote` succeeds exactly for the active player in `play` with a
clear per-turn flag, an existing next ladder rank, a free seat at that rank
(seat limit 1/2/3 by player count), and requirement and cost both met
(non-strict ≥); on success it deducts the cost, adds the bonus, clamps at
zero, advances the rank to the next ladder position, sets the flag, and
changes nothing else — in particular neither the current player nor any
stage, so the turn does not end. -/
theorem c7_promote (activeRanks : List Rank) (s : MatchState) (pid : String) :
    ((promoteMove activeRanks s pid).isSome = true ↔
      (pid = s.currentPlayer ∧ s.stages pid = Stage.play ∧
        s.G.promotedThisTurn pid = false ∧
        ∃ nextRank, activeRanks.get? (findRankIdx activeRanks (s.G.ranks pid) + 1) =
            some nextRank ∧
          (s.G.playerOrder.filter (fun p => p ≠ pid ∧ s.G.ranks p = nextRank.id)).length <
            rankSeatLimit (promotePlayerCount s) ∧
          hasResources (s.G.resources pid) nextRank.requirement = true ∧
          hasResources (s.G.resources pid) nextRank.cost = true))
    ∧ ∀ s1, promoteMove activeRanks s pid = some s1 →
        ∃ nextRank, activeRanks.get? (findRankIdx activeRanks (s.G.ranks pid) + 1) =
            some nextRank ∧
          s1 = { s with G := { s.G with
            resources := updMap s.G.resources pid (clampNonNegativeResources
              (applyResourceDelta (spendResources (s.G.resources pid) nextRank.cost)
                nextRank.bonus)),
            ranks := updMap s.G.ranks pid nextRank.id,
            promotedThisTurn := updMap s.G.promotedThisTurn pid true } } := by
  constructor
  · simp only [promoteMove]
    by_cases g1 : pid ≠ s.currentPlayer
    · rw [if_pos g1]
      constructor
      · intro h
        simp at h
      · rintro ⟨h1, _⟩
        exact absurd h1 g1
    · rw [if_neg g1]
      by_cases g2 : s.stages pid ≠ Stage.play
      · rw [if_pos g2]
        constructor
        · intro h
          simp at h
        · rintro ⟨_, h2, _⟩
          exact absurd h2 g2
      · rw [if_neg g2]
        by_cases g3 : s.G.promotedThisTurn pid = true
        · rw [if_pos g3]
          constructor
          · intro h
            simp at h
          · rintro ⟨_, _, h3, _⟩
            rw [h3] at g3
            cases g3
        · rw [if_neg g3]
          have hpid : pid = s.currentPlayer := not_not.mp g1
          have hstage : s.stages pid = Stage.play := not_not.mp g2
          have hflag : s.G.promotedThisTurn pid = false := by
            cases hx : s.G.promotedThisTurn pid
            · rfl
            · exact absurd hx g3
          have hiff := promoteRank_some_iff activeRanks s.G pid (promotePlayerCount s)
          cases hp : promoteRank activeRanks s.G pid (promotePlayerCount s) with
          | none =>
            rw [hp] at hiff
            constructor
            · intro h
              simp at h
            · rintro ⟨_, _, _, hex⟩
              have : (false : Bool) = true := hiff.mpr hex
              cases this
          | some G1 =>
            rw [hp] at hiff
            constructor
            · intro _
              exact ⟨hpid, hstage, hflag, hiff.mp rfl⟩
            · intro _
              simp
  · intro s1 h
    simp only [promoteMove] at h
    by_cases g1 : pid ≠ s.currentPlayer
    · rw [if_pos g1] at h
      cases h
    · rw [if_neg g1] at h
      by_cases g2 : s.stages pid ≠ Stage.play
      · rw [if_pos g2] at h
        cases h
      · rw [if_neg g2] at h
        by_cases g3 : s.G.promotedThisTurn pid = true
        · rw [if_pos g3] at h
          cases h
        · rw [if_neg g3] at h
          cases hp : promoteRank activeRanks s.G pid (promotePlayerCount s) with
          | none =>
            simp [hp] at h
          | some G1 =>
            simp only [hp, Option.some.injEq] at h
            obtain ⟨nextRank, hnext, hG1⟩ := promoteRank_some_eq activeRanks s.G pid _ G1 hp
            subst hG1
            exact ⟨nextRank, hnext, h.symm⟩

/-- C7 witness — with resources `(2,3,3,0,0)` at `cadet` (meets the captain
requirement `rep 3, disc 3` and affords `time 1`) in `play`, the promote
move is accepted. -/
theorem c7_witness :
    (promoteMove baseRanks (fixtureMS (fixtureG ⟨2, 3, 3, 0, 0⟩ "cadet") Stage.play)
      "0").isSome = true :=
  (c7_promote baseRanks (fixtureMS (fixtureG ⟨2, 3, 3, 0, 0⟩ "cadet") Stage.play) "0").1.mpr
    ⟨rfl, by decide, by decide,
      ⟨⟨"captain", ⟨0, 3, 3, 0, 0⟩, ⟨1, 0, 0, 0, 0⟩, ⟨0, 0, 0, 0, 0⟩⟩,
        by decide, by decide, by decide, by decide⟩⟩

/-! ## Win detection (claim C8) -/

theorem sortByDesc_head {α : Type} [DecidableEq α] (f : α → Int) :
    ∀ (l : List α) (w : α), (sortByDesc f l).head? = some w →
      w ∈ l ∧ (∀ x ∈ l, f x ≤ f w) ∧
        ∀ x ∈ l, f w ≤ f x → l.indexOf w ≤ l.indexOf x := by
  intro l
  induction l with
  | nil =>
    intro w h
    simp [sortByDesc] at h
  | cons a t ih =>
    intro w h
    rw [sortByDesc, List.insertionSort] at h
    cases ht : (t.insertionSort (fun x y => f y ≤ f x)) with
    | nil =>
      have htnil : t = [] := by
        have hp := List.perm_insertionSort (fun x y => f y ≤ f x) t
        rw [ht] at hp
        exact hp.symm.eq_nil
      rw [ht] at h
      simp only [List.orderedInsert, List.head?_cons, Option.some.injEq] at h
      subst h
      subst htnil
      refine ⟨List.mem_cons_self _ _, ?_, ?_⟩
      · intro y hy
        rcases List.mem_cons.mp hy with hy | hy
        · subst hy
          exact le_rfl
        · cases hy
      · intro y hy hle
        rw [List.indexOf_cons_self]
        exact Nat.zero_le _
    | cons m rest =>
      rw [ht] at h
      obtain ⟨hmem, hmax, hfirst⟩ := ih m (by rw [sortByDesc, ht]; rfl)
      by_cases hr : f m ≤ f a
      · simp only [List.orderedInsert, if_pos hr, List.head?_cons,
          Option.some.injEq] at h
        subst h
        refine ⟨List.mem_cons_self _ _, ?_, ?_⟩
        · intro y hy
          rcases List.mem_cons.mp hy with hy | hy
          · subst hy
            exact le_rfl
          · exact le_trans (hmax y hy) hr
        · intro y hy hle
          rw [List.indexOf_cons_self]
          exact Nat.zero_le _
      · simp only [List.orderedInsert, if_neg hr, List.head?_cons,
          Option.some.injEq] at h
        subst h
        have hma : m ≠ a := by
          intro e
          rw [e] at hr
          exact hr le_rfl
        refine ⟨List.mem_cons_of_mem _ hmem, ?_, ?_⟩
        · intro y hy
          rcases List.mem_cons.mp hy with hy | hy
          · subst hy
            omega
          · exact hmax y hy
        · intro y hy hle
          rcases List.mem_cons.mp hy with hy | hy
          · subst hy
            exact absurd hle hr
          · by_cases hya : y = a
            · rw [hya] at hle
              exact absurd hle hr
            · rw [List.indexOf_cons_ne _ (Ne.symm hma), List.indexOf_cons_ne _ (Ne.symm hya)]
              have := hfirst y hy hle
              omega

/-- C8 — after-move win detection: a final-rank occupant wins immediately
(deck contents irrelevant); otherwise with an empty deck and all hands
empty the winner is the first player in declared order with the highest
resource sum; otherwise (deck non-empty, or some hand non-empty) there is
no winner. -/
theorem c8_winner (activeRanks : List Rank) (G : GameState) :
    ((∃ p ∈ G.playerOrder, G.ranks p = getTopRankId activeRanks) →
      ∃ w, getWinner activeRanks G = some w ∧ G.ranks w = getTopRankId activeRanks)
    ∧ ((∀ p ∈ G.playerOrder, G.ranks p ≠ getTopRankId activeRanks) →
        G.deck = [] → (∀ p ∈ G.playerOrder, G.hands p = []) → G.playerOrder ≠ [] →
        ∃ w, getWinner activeRanks G = some w ∧ w ∈ G.playerOrder ∧
          (∀ x ∈ G.playerOrder,
            sumResources (G.resources x) ≤ sumResources (G.resources w)) ∧
          ∀ x ∈ G.playerOrder,
            sumResources (G.resources w) ≤ sumResources (G.resources x) →
            G.playerOrder.indexOf w ≤ G.playerOrder.indexOf x)
    ∧ ((∀ p ∈ G.playerOrder, G.ranks p ≠ getTopRankId activeRanks) →
        (G.deck ≠ [] ∨ ∃ p ∈ G.playerOrder, G.hands p ≠ []) →
        getWinner activeRanks G = none) := by
  refine ⟨?_, ?_, ?_⟩
  · rintro ⟨p, hp, hrank⟩
    simp only [getWinner]
    cases hfind : G.playerOrder.find?
        (fun pid => G.ranks pid = getTopRankId activeRanks) with
    | none =>
      exfalso
      rw [List.find?_eq_none] at hfind
      exact hfind p hp (by simpa using hrank)
    | some w =>
      have hw := List.find?_some hfind
      exact ⟨w, rfl, by simpa using hw⟩
  · intro hnotop hdeck hhands hne
    simp only [getWinner]
    have hfind : G.playerOrder.find?
        (fun pid => G.ranks pid = getTopRankId activeRanks) = none := by
      rw [List.find?_eq_none]
      intro p hp
      simpa using hnotop p hp
    rw [hfind]
    have hlen : G.deck.length = 0 := by rw [hdeck]; rfl
    rw [if_pos hlen]
    have hany : (G.playerOrder.any (fun pid => (G.hands pid).length ≠ 0)) = false := by
      rw [List.any_eq_false]
      intro p hp
      simp [hhands p hp]
    rw [hany, if_neg (by simp)]
    have hsne : sortByDesc (fun pid => sumResources (G.resources pid)) G.playerOrder ≠ [] := by
      intro hx
      have hp := List.perm_insertionSort
        (fun a b => sumResources (G.resources b) ≤ sumResources (G.resources a))
        G.playerOrder
      rw [sortByDesc] at hx
      rw [hx] at hp
      exact hne hp.symm.eq_nil
    cases hhead : (sortByDesc (fun pid => sumResources (G.resources pid))
        G.playerOrder).head? with
    | none =>
      exact absurd (List.head?_eq_none_iff.mp hhead) hsne
    | some w =>
      obtain ⟨hmem, hmax, hfirst⟩ := sortByDesc_head _ _ _ hhead
      exact ⟨w, rfl, hmem, hmax, hfirst⟩
  · intro hnotop hcont
    simp only [getWinner]
    have hfind : G.playerOrder.find?
        (fun pid => G.ranks pid = getTopRankId activeRanks) = none := by
      rw [List.find?_eq_none]
      intro p hp
      simpa using hnotop p hp
    rw [hfind]
    rcases hcont with hdeck | ⟨p, hp, hhand⟩
    · rw [if_neg (by simpa using List.length_pos.mpr hdeck |>.ne')]
    · by_cases hlen : G.deck.length = 0
      · rw [if_pos hlen]
        have hany : (G.playerOrder.any (fun pid => (G.hands pid).length ≠ 0)) = true := by
          rw [List.any_eq_true]
          exact ⟨p, hp, by simpa using List.length_pos.mpr hhand |>.ne'⟩
        rw [hany, if_pos rfl]
      · rw [if_neg hlen]

/-- C8 witness — the spec's 4-player scenario: deck and hands empty, player
"2" has the strictly highest resource sum and is declared winner; the
first-in-order tie-break clauses are instantiated at the same state. -/
theorem c8_witness :
    ∃ w, getWinner baseRanks
        { deck := [], discard := [], legendaryDeck := [],
          playerOrder := ["0", "1", "2", "3"], hands := fun _ => [],
          ranks := fun _ => "cadet",
          resources := fun p => if p = "2" then ⟨3, 3, 3, 3, 3⟩ else ⟨2, 2, 2, 2, 2⟩,
          promotedThisTurn := fun _ => false } = some w ∧
      w ∈ ["0", "1", "2", "3"] ∧
      (∀ x ∈ ["0", "1", "2", "3"],
        sumResources ((fun p => if p = "2" then (⟨3, 3, 3, 3, 3⟩ : Resources)
          else ⟨2, 2, 2, 2, 2⟩) x) ≤
        sumResources ((fun p => if p = "2" then (⟨3, 3, 3, 3, 3⟩ : Resources)
          else ⟨2, 2, 2, 2, 2⟩) w)) ∧
      ∀ x ∈ ["0", "1", "2", "3"],
        sumResources ((fun p => if p = "2" then (⟨3, 3, 3, 3, 3⟩ : Resources)
          else ⟨2, 2, 2, 2, 2⟩) w) ≤
        sumResources ((fun p => if p = "2" then (⟨3, 3, 3, 3, 3⟩ : Resources)
          else ⟨2, 2, 2, 2, 2⟩) x) →
        (["0", "1", "2", "3"].indexOf w : Nat) ≤ ["0", "1", "2", "3"].indexOf x :=
  (c8_winner baseRanks
    { deck := [], discard := [], legendaryDeck := [],
      playerOrder := ["0", "1", "2", "3"], hands := fun _ => [],
      ranks := fun _ => "cadet",
      resources := fun p => if p = "2" then ⟨3, 3, 3, 3, 3⟩ else ⟨2, 2, 2, 2, 2⟩,
      promotedThisTurn := fun _ => false }).2.1
    (by decide) rfl (fun p _ => rfl) (by decide)

/-! ## Atomicity of a failing strict portion in playCard (claim C2) -/

theorem applyRankEffects_resources (activeRanks : List Rank) (pid : String)
    (effects : List Effect) :
    ∀ G : GameState, (applyRankEffects activeRanks G pid effects).resources = G.resources := by
  induction effects with
  | nil => intro G; rfl
  | cons e rest ih =>
    intro G
    rw [applyRankEffects, List.foldl_cons]
    cases he : e.resource with
    | rank =>
      have := ih (shiftRankG activeRanks G pid e.value)
      rw [applyRankEffects] at this
      simp [he, this, shiftRankG_resources]
    | res r =>
      have := ih G
      rw [applyRankEffects] at this
      simp [he, this]

theorem applyCardEffects_resources_other (activeRanks : List Rank) (G : GameState)
    (pid : String) (effects : List Effect) (repl : List ResourceKey) (q : String)
    (hq : q ≠ pid) :
    (∀ G1, applyCardEffects activeRanks G pid effects repl = .ok G1 →
      G1.resources q = G.resources q)
    ∧ (∀ G1, applyCardEffects activeRanks G pid effects repl = .thrown G1 →
      G1.resources q = G.resources q) := by
  constructor
  · intro G1 h
    simp only [applyCardEffects] at h
    by_cases hemp : effects.isEmpty
    · rw [if_pos hemp] at h
      injection h with h
      rw [← h]
    · rw [if_neg hemp] at h
      by_cases hlen : (repl.length : Int) ≠ replacementCostUnits (G.resources pid) effects
      · rw [if_pos hlen] at h
        cases h
      · rw [if_neg hlen] at h
        cases happ : applyGo (G.resources pid) repl effects with
        | error res => simp [happ] at h
        | ok pr =>
          obtain ⟨res, left⟩ := pr
          simp only [happ] at h
          injection h with h
          rw [← h]
          simp only [GameState.setResources, updMap, if_neg hq]
          rw [applyRankEffects_resources]
          simp [GameState.setResources, updMap, if_neg hq]
  · intro G1 h
    simp only [applyCardEffects] at h
    by_cases hemp : effects.isEmpty
    · rw [if_pos hemp] at h
      cases h
    · rw [if_neg hemp] at h
      by_cases hlen : (repl.length : Int) ≠ replacementCostUnits (G.resources pid) effects
      · rw [if_pos hlen] at h
        cases h
      · rw [if_neg hlen] at h
        cases happ : applyGo (G.resources pid) repl effects with
        | error res =>
          simp only [happ] at h
          injection h with h
          rw [← h]
          simp [GameState.setResources, updMap, if_neg hq]
        | ok pr => simp [happ] at h

theorem softFallback_resources_other (activeRanks : List Rank) (G : GameState)
    (p : String) (effects : List Effect) (q : String) (hq : q ≠ p) :
    (softFallback activeRanks G p effects).1.resources q = G.resources q := by
  simp only [softFallback]
  simp only [GameState.setResources, updMap, if_neg hq]
  rw [softRankFold_resources]
  simp [GameState.setResources, updMap, if_neg hq]

theorem soft_resources_other (activeRanks : List Rank) (G : GameState) (p : String)
    (effects : List Effect) (q : String) (hq : q ≠ p) :
    (applyCardEffectsSoft activeRanks G p effects).1.resources q = G.resources q := by
  by_cases hemp : effects.isEmpty
  · simp [applyCardEffectsSoft, hemp]
  · unfold applyCardEffectsSoft
    rw [if_neg hemp]
    cases hplan : planReplacementResources (G.resources p) effects with
    | none =>
      dsimp only
      exact softFallback_resources_other activeRanks G p effects q hq
    | some picks =>
      dsimp only
      cases hap : applyCardEffects activeRanks G p effects picks with
      | ok G1 =>
        simp only [hap]
        exact (applyCardEffects_resources_other activeRanks G p effects picks q hq).1 G1 hap
      | rejected =>
        simp only [hap]
        exact softFallback_resources_other activeRanks G p effects q hq
      | thrown G1 =>
        simp only [hap]
        rw [softFallback_resources_other activeRanks G1 p effects q hq]
        exact (applyCardEffects_resources_other activeRanks G p effects picks q hq).2 G1 hap

theorem applyCardEffects_isOk_congr (activeRanks : List Rank) (G G' : GameState)
    (pid : String) (effects : List Effect) (repl : List ResourceKey)
    (h : G.resources pid = G'.resources pid) :
    (applyCardEffects activeRanks G pid effects repl).isOk =
      (applyCardEffects activeRanks G' pid effects repl).isOk := by
  by_cases hemp : effects.isEmpty
  · simp [applyCardEffects, hemp, StrictOutcome.isOk]
  · simp only [applyCardEffects, hemp, if_false, h]
    by_cases hlen : (repl.length : Int) ≠ replacementCostUnits (G'.resources pid) effects
    · simp [hlen]
    · simp only [hlen, if_false, ite_false]
      cases happ : applyGo (G'.resources pid) repl effects with
      | error res => simp [happ, StrictOutcome.isOk]
      | ok p => simp [happ, StrictOutcome.isOk]

theorem decision_fold_keeps (activeRanks : List Rank) (pid : String) (effects : List Effect)
    (repl : List ResourceKey) :
    ∀ (rest : List String) (acc : GameState × Bool), acc.2 = true →
      rest.foldl (decisionStep activeRanks pid effects repl) acc = acc := by
  intro rest
  induction rest with
  | nil => intro acc _; rfl
  | cons p t ih =>
    intro acc hacc
    rw [List.foldl_cons]
    have hstep : decisionStep activeRanks pid effects repl acc p = acc := by
      simp [decisionStep, hacc]
    rw [hstep]
    exact ih acc hacc

theorem decision_fold_fails (activeRanks : List Rank) (pid : String) (effects : List Effect)
    (repl : List ResourceKey) :
    ∀ (order : List String) (G : GameState), pid ∈ order →
      (applyCardEffects activeRanks G pid effects repl).isOk = false →
      (order.foldl (decisionStep activeRanks pid effects repl) (G, false)).2 = true := by
  intro order
  induction order with
  | nil =>
    intro G hmem _
    cases hmem
  | cons p t ih =>
    intro G hmem hfail
    rw [List.foldl_cons]
    by_cases hp : p = pid
    · subst hp
      have hstep : decisionStep activeRanks p effects repl (G, false) p =
          match applyCardEffects activeRanks G p effects repl with
          | .ok g1 => (g1, false)
          | .rejected => (G, true)
          | .thrown g1 => (g1, true) := by
        simp [decisionStep]
      rw [hstep]
      cases hap : applyCardEffects activeRanks G p effects repl with
      | ok g1 => rw [hap] at hfail; simp [StrictOutcome.isOk] at hfail
      | rejected =>
        rw [decision_fold_keeps activeRanks p effects repl t (G, true) rfl]
      | thrown g1 =>
        rw [decision_fold_keeps activeRanks p effects repl t (g1, true) rfl]
    · have hmem' : pid ∈ t := by
        rcases List.mem_cons.mp hmem with hx | hx
        · exact absurd hx.symm hp
        · exact hx
      have hstep : decisionStep activeRanks pid effects repl (G, false) p =
          ((applyCardEffectsSoft activeRanks G p effects).1, false) := by
        simp [decisionStep, hp]
      rw [hstep]
      refine ih _ hmem' ?_
      rw [← applyCardEffects_isOk_congr activeRanks G
        (applyCardEffectsSoft activeRanks G p effects).1 pid effects repl
        (soft_resources_other activeRanks G p effects pid (fun e => hp e.symm)).symm]
      exact hfail

theorem playCard_strict_fail_none (activeRanks : List Rank) (s : MatchState)
    (pid cardId : String) (repl : List ResourceKey) (target : Option String) (card : Card)
    (hcard : (s.G.hands pid).get? ((s.G.hands pid).findIdx (fun c => c.id = cardId)) =
      some card)
    (hcat : card.category = CardCategory.SUPPORT ∨ card.category = CardCategory.DECISION ∨
      card.category = CardCategory.NEUTRAL ∨ card.category = CardCategory.VVNZ ∨
      card.category = CardCategory.LEGENDARY)
    (hmem : pid ∈ s.G.playerOrder)
    (hfail : (applyCardEffects activeRanks s.G pid card.effects repl).isOk = false) :
    playCardMove activeRanks s pid cardId repl target = none := by
  unfold playCardMove
  by_cases g1 : pid ≠ s.currentPlayer
  · rw [if_pos g1]
  · rw [if_neg g1]
    by_cases g2 : s.stages pid ≠ Stage.play
    · rw [if_pos g2]
    · rw [if_neg g2]
      simp only [hcard]
      have hresolve : playCardResolve activeRanks s.G pid card repl target = none := by
        have hnl : ¬ card.category = CardCategory.LYAP := by
          rcases hcat with h | h | h | h | h <;> rw [h] <;> intro hx <;> cases hx
        have hns : ¬ card.category = CardCategory.SCANDAL := by
          rcases hcat with h | h | h | h | h <;> rw [h] <;> intro hx <;> cases hx
        unfold playCardResolve
        rw [if_neg hnl, if_neg hns]
        by_cases hsup : card.category = CardCategory.SUPPORT
        · rw [if_pos hsup]
          cases hap : applyCardEffects activeRanks s.G pid card.effects repl with
          | ok g1 => rw [hap] at hfail; simp [StrictOutcome.isOk] at hfail
          | rejected => rfl
          | thrown g1 => rfl
        · rw [if_neg hsup]
          by_cases hdec : card.category = CardCategory.DECISION
          · rw [if_pos hdec]
            have hflag := decision_fold_fails activeRanks pid card.effects repl
              s.G.playerOrder s.G hmem hfail
            simp only [hflag, if_pos]
          · rw [if_neg hdec]
            cases hap : applyCardEffects activeRanks s.G pid card.effects repl with
            | ok g1 => rw [hap] at hfail; simp [StrictOutcome.isOk] at hfail
            | rejected => rfl
            | thrown g1 => rfl
      rw [hresolve]

/-- C2 — whenever the strict portion of a `playCard` fails (SUPPORT,
DECISION, or NEUTRAL/VVNZ/LEGENDARY with an insufficient or invalid
replacement list), the whole move is rejected and the committed match state
is the original one, unchanged for every player — in particular for
DECISION, although soft splash applications to players seated before the
actor are attempted inside the discarded draft. -/
theorem c2_strict_failure_atomic (activeRanks : List Rank) (s : MatchState)
    (pid cardId : String) (repl : List ResourceKey) (target : Option String) (card : Card)
    (hcard : (s.G.hands pid).get? ((s.G.hands pid).findIdx (fun c => c.id = cardId)) =
      some card)
    (hcat : card.category = CardCategory.SUPPORT ∨ card.category = CardCategory.DECISION ∨
      card.category = CardCategory.NEUTRAL ∨ card.category = CardCategory.VVNZ ∨
      card.category = CardCategory.LEGENDARY)
    (hmem : pid ∈ s.G.playerOrder)
    (hfail : (applyCardEffects activeRanks s.G pid card.effects repl).isOk = false) :
    playCardMove activeRanks s pid cardId repl target = none ∧
      commitMove s (playCardMove activeRanks s pid cardId repl target) = s := by
  have h := playCard_strict_fail_none activeRanks s pid cardId repl target card hcard hcat
    hmem hfail
  exact ⟨h, by rw [h]; rfl⟩

/-- C2 witness — the active player "1" (seated second, so the splash at
player "0" is attempted first inside the draft) plays an unpayable DECISION
card with an empty replacement list: the move is rejected and the committed
state is unchanged. -/
theorem c2_witness :
    playCardMove baseRanks decisionFixture "1" "d1" [] none = none ∧
      commitMove decisionFixture
        (playCardMove baseRanks decisionFixture "1" "d1" [] none) = decisionFixture :=
  c2_strict_failure_atomic baseRanks decisionFixture "1" "d1" [] none decisionCard
    (by decide) (Or.inr (Or.inl (by decide))) (by decide) (by decide)

/-! ## DECISION cards: simulation policy versus live move (claim C10) -/

/-- C10 — the simulation harness resolves a DECISION card from hand by
soft-applying its effects to every seated player including the actor, with
no strict payment and no replacement list, whereas the live `playCard` pays
strictly on the actor and rejects the move whenever that strict payment
fails (the simulation, by the first part, still plays the card there). -/
theorem c10_sim_decision_soft (activeRanks : List Rank) (playerIDs : List String)
    (pid : String) (G : GameState) (card : Card) (rest : List Card) (i : Nat)
    (hcat : card.category = CardCategory.DECISION) :
    scanHandAux activeRanks playerIDs pid G (card :: rest) i =
      (playerIDs.foldl (fun g p => (applyCardEffectsSoft activeRanks g p card.effects).1) G,
        some (i, card))
    ∧ ∀ (s : MatchState) (cardId : String) (repl : List ResourceKey)
        (target : Option String),
        (s.G.hands pid).get? ((s.G.hands pid).findIdx (fun c => c.id = cardId)) =
          some card →
        pid ∈ s.G.playerOrder →
        (applyCardEffects activeRanks s.G pid card.effects repl).isOk = false →
        playCardMove activeRanks s pid cardId repl target = none := by
  constructor
  · simp only [scanHandAux, hcat]
  · intro s cardId repl target hcard hmem hfail
    exact playCard_strict_fail_none activeRanks s pid cardId repl target card hcard
      (Or.inr (Or.inl hcat)) hmem hfail

/-- C10 witness — the two-player DECISION fixture: the simulation resolves
the unpayable DECISION card by soft application to both players, while the
live move rejects it. -/
theorem c10_witness :
    scanHandAux baseRanks ["0", "1"] "1" decisionFixture.G [decisionCard] 0 =
      (["0", "1"].foldl
        (fun g p => (applyCardEffectsSoft baseRanks g p decisionCard.effects).1)
        decisionFixture.G, some (0, decisionCard))
    ∧ playCardMove baseRanks decisionFixture "1" "d1" [] none = none := by
  have h := c10_sim_decision_soft baseRanks ["0", "1"] "1" decisionFixture.G decisionCard
    [] 0 (by decide)
  exact ⟨h.1, h.2 decisionFixture "d1" [] none (by decide) (by decide) (by decide)⟩

/-! ## Non-negativity of all reachable resource vectors (claim C3) -/

theorem applyCardEffects_ok_nonneg (activeRanks : List Rank) (G : GameState) (pid : String)
    (effects : List Effect) (repl : List ResourceKey) (G1 : GameState)
    (hnn : ∀ q k, 0 ≤ (G.resources q).get k)
    (h : applyCardEffects activeRanks G pid effects repl = .ok G1) :
    ∀ q k, 0 ≤ (G1.resources q).get k := by
  intro q k
  by_cases hq : q = pid
  · subst hq
    simp only [applyCardEffects] at h
    by_cases hemp : effects.isEmpty
    · rw [if_pos hemp] at h
      injection h with h
      rw [← h]
      exact hnn q k
    · rw [if_neg hemp] at h
      by_cases hlen : (repl.length : Int) ≠ replacementCostUnits (G.resources q) effects
      · rw [if_pos hlen] at h
        cases h
      · rw [if_neg hlen] at h
        cases happ : applyGo (G.resources q) repl effects with
        | error res => simp [happ] at h
        | ok pr =>
          obtain ⟨res, left⟩ := pr
          simp only [happ] at h
          injection h with h
          rw [← h]
          simp only [GameState.setResources, updMap, if_pos rfl]
          exact clamp_nonneg _ k
  · rw [(applyCardEffects_resources_other activeRanks G pid effects repl q hq).1 G1 h]
    exact hnn q k

theorem softFallback_nonneg (activeRanks : List Rank) (G : GameState) (p : String)
    (effects : List Effect) (hnn : ∀ q k, 0 ≤ (G.resources q).get k) :
    ∀ q k, 0 ≤ ((softFallback activeRanks G p effects).1.resources q).get k := by
  intro q k
  by_cases hq : q = p
  · subst hq
    simp only [softFallback, GameState.setResources, updMap, if_pos rfl]
    exact clamp_nonneg _ k
  · rw [softFallback_resources_other activeRanks G p effects q hq]
    exact hnn q k

theorem soft_nonneg (activeRanks : List Rank) (G : GameState) (p : String)
    (effects : List Effect) (hnn : ∀ q k, 0 ≤ (G.resources q).get k) :
    ∀ q k, 0 ≤ ((applyCardEffectsSoft activeRanks G p effects).1.resources q).get k := by
  by_cases hemp : effects.isEmpty
  · simpa [applyCardEffectsSoft, hemp] using hnn
  · unfold applyCardEffectsSoft
    rw [if_neg hemp]
    cases hplan : planReplacementResources (G.resources p) effects with
    | none =>
      dsimp only
      exact softFallback_nonneg activeRanks G p effects hnn
    | some picks =>
      dsimp only
      cases hap : applyCardEffects activeRanks G p effects picks with
      | ok G1 =>
        simp only [hap]
        exact applyCardEffects_ok_nonneg activeRanks G p effects picks G1 hnn hap
      | rejected =>
        simp only [hap]
        exact softFallback_nonneg activeRanks G p effects hnn
      | thrown G1 =>
        simp only [hap]
        intro q k
        by_cases hq : q = p
        · subst hq
          simp only [softFallback, GameState.setResources, updMap, if_pos rfl]
          exact clamp_nonneg _ k
        · rw [softFallback_resources_other activeRanks G1 p effects q hq]
          rw [(applyCardEffects_resources_other activeRanks G p effects picks q hq).2 G1 hap]
          exact hnn q k

theorem soft_fold_nonneg (activeRanks : List Rank) (effects : List Effect) :
    ∀ (order : List String) (G : GameState), (∀ q k, 0 ≤ (G.resources q).get k) →
      ∀ q k, 0 ≤ ((order.foldl
        (fun g p => (applyCardEffectsSoft activeRanks g p effects).1) G).resources q).get k := by
  intro order
  induction order with
  | nil => intro G hnn; exact hnn
  | cons p t ih =>
    intro G hnn
    rw [List.foldl_cons]
    exact ih _ (soft_nonneg activeRanks G p effects hnn)

theorem decision_fold_nonneg (activeRanks : List Rank) (pid : String) (effects : List Effect)
    (repl : List ResourceKey) :
    ∀ (order : List String) (G : GameState), (∀ q k, 0 ≤ (G.resources q).get k) →
      (order.foldl (decisionStep activeRanks pid effects repl) (G, false)).2 = false →
      ∀ q k, 0 ≤ ((order.foldl (decisionStep activeRanks pid effects repl)
        (G, false)).1.resources q).get k := by
  intro order
  induction order with
  | nil =>
    intro G hnn _
    exact hnn
  | cons p t ih =>
    intro G hnn hflag
    rw [List.foldl_cons] at hflag ⊢
    by_cases hp : p = pid
    · subst hp
      have hstep : decisionStep activeRanks p effects repl (G, false) p =
          match applyCardEffects activeRanks G p effects repl with
          | .ok g1 => (g1, false)
          | .rejected => (G, true)
          | .thrown g1 => (g1, true) := by
        simp [decisionStep]
      rw [hstep] at hflag ⊢
      cases hap : applyCardEffects activeRanks G p effects repl with
      | ok g1 =>
        rw [hap] at hflag
        exact ih g1 (applyCardEffects_ok_nonneg activeRanks G p effects repl g1 hnn hap) hflag
      | rejected =>
        rw [hap] at hflag
        have hflag1 : (t.foldl (decisionStep activeRanks p effects repl) (G, true)).2 =
            false := hflag
        rw [decision_fold_keeps activeRanks p effects repl t (G, true) rfl] at hflag1
        cases hflag1
      | thrown g1 =>
        rw [hap] at hflag
        have hflag1 : (t.foldl (decisionStep activeRanks p effects repl) (g1, true)).2 =
            false := hflag
        rw [decision_fold_keeps activeRanks p effects repl t (g1, true) rfl] at hflag1
        cases hflag1
    · have hstep : decisionStep activeRanks pid effects repl (G, false) p =
          ((applyCardEffectsSoft activeRanks G p effects).1, false) := by
        simp [decisionStep, hp]
      rw [hstep] at hflag ⊢
      exact ih _ (soft_nonneg activeRanks G p effects hnn) hflag

theorem promoteRank_nonneg (activeRanks : List Rank) (G : GameState) (pid : String)
    (playerCount : Nat) (G1 : GameState)
    (hnn : ∀ q k, 0 ≤ (G.resources q).get k)
    (h : promoteRank activeRanks G pid playerCount = some G1) :
    ∀ q k, 0 ≤ (G1.resources q).get k := by
  obtain ⟨nextRank, _, hG1⟩ := promoteRank_some_eq activeRanks G pid playerCount G1 h
  subst hG1
  intro q k
  simp only [updMap]
  by_cases hq : q = pid
  · simp only [hq, if_pos rfl]
    exact clamp_nonneg _ k
  · simp only [hq, if_false, ite_false]
    exact hnn q k

theorem drawCards_resources (pid : String) :
    ∀ (n : Nat) (G : GameState), (drawCards G pid n).resources = G.resources := by
  intro n
  induction n with
  | zero => intro G; rfl
  | succ n ih =>
    intro G
    rw [drawCards]
    cases hdeck : G.deck.getLast? with
    | none => rfl
    | some card => rw [ih]

theorem playCardResolve_nonneg (activeRanks : List Rank) (G : GameState) (pid : String)
    (card : Card) (repl : List ResourceKey) (target : Option String) (G1 : GameState)
    (hnn : ∀ q k, 0 ≤ (G.resources q).get k)
    (h : playCardResolve activeRanks G pid card repl target = some G1) :
    ∀ q k, 0 ≤ (G1.resources q).get k := by
  unfold playCardResolve at h
  by_cases hl : card.category = CardCategory.LYAP
  · rw [if_pos hl] at h
    cases target with
    | none => cases h
    | some t =>
      dsimp only at h
      by_cases ht1 : t = pid
      · rw [if_pos ht1] at h
        cases h
      · rw [if_neg ht1] at h
        by_cases ht2 : t ∉ G.playerOrder
        · rw [if_pos ht2] at h
          cases h
        · rw [if_neg ht2] at h
          injection h with h
          rw [← h]
          exact soft_nonneg activeRanks G t card.effects hnn
  · rw [if_neg hl] at h
    by_cases hs : card.category = CardCategory.SCANDAL
    · rw [if_pos hs] at h
      injection h with h
      rw [← h]
      exact soft_fold_nonneg activeRanks card.effects _ G hnn
    · rw [if_neg hs] at h
      by_cases hsup : card.category = CardCategory.SUPPORT
      · rw [if_pos hsup] at h
        cases hap : applyCardEffects activeRanks G pid card.effects repl with
        | ok g1 =>
          rw [hap] at h
          injection h with h
          rw [← h]
          exact applyCardEffects_ok_nonneg activeRanks G pid card.effects repl g1 hnn hap
        | rejected => rw [hap] at h; cases h
        | thrown g1 => rw [hap] at h; cases h
      · rw [if_neg hsup] at h
        by_cases hdec : card.category = CardCategory.DECISION
        · rw [if_pos hdec] at h
          dsimp only at h
          by_cases hflag : (G.playerOrder.foldl
              (decisionStep activeRanks pid card.effects repl) (G, false)).2 = true
          · rw [if_pos hflag] at h
            cases h
          · rw [if_neg hflag] at h
            injection h with h
            rw [← h]
            exact decision_fold_nonneg activeRanks pid card.effects repl G.playerOrder G hnn
              (Bool.not_eq_true _ ▸ Bool.of_not_eq_true hflag)
        · rw [if_neg hdec] at h
          cases hap : applyCardEffects activeRanks G pid card.effects repl with
          | ok g1 =>
            rw [hap] at h
            injection h with h
            rw [← h]
            exact applyCardEffects_ok_nonneg activeRanks G pid card.effects repl g1 hnn hap
          | rejected => rw [hap] at h; cases h
          | thrown g1 => rw [hap] at h; cases h

theorem drawCardMove_nonneg (activeRanks : List Rank) (s : MatchState) (pid : String)
    (s1 : MatchState) (hnn : ∀ q k, 0 ≤ (s.G.resources q).get k)
    (h : drawCardMove activeRanks s pid = some s1) :
    ∀ q k, 0 ≤ (s1.G.resources q).get k := by
  unfold drawCardMove at h
  by_cases g1 : pid ≠ s.currentPlayer
  · rw [if_pos g1] at h
    cases h
  · rw [if_neg g1] at h
    by_cases g2 : s.stages pid ≠ Stage.draw
    · rw [if_pos g2] at h
      cases h
    · rw [if_neg g2] at h
      by_cases g3 : HAND_LIMIT ≤ (s.G.hands pid).length
      · rw [if_pos g3] at h
        cases h
      · rw [if_neg g3] at h
        cases hdeck : s.G.deck.getLast? with
        | none =>
          simp only [hdeck] at h
          injection h with h
          rw [← h]
          exact hnn
        | some card =>
          simp only [hdeck] at h
          by_cases hl : card.category = CardCategory.LYAP
          · rw [if_pos hl] at h
            injection h with h
            rw [← h]
            exact soft_nonneg activeRanks _ pid card.effects hnn
          · rw [if_neg hl] at h
            by_cases hs : card.category = CardCategory.SCANDAL
            · rw [if_pos hs] at h
              injection h with h
              rw [← h]
              exact soft_fold_nonneg activeRanks card.effects _ _ hnn
            · rw [if_neg hs] at h
              injection h with h
              rw [← h]
              exact hnn

theorem playCardMove_nonneg (activeRanks : List Rank) (s : MatchState) (pid cardId : String)
    (repl : List ResourceKey) (target : Option String) (s1 : MatchState)
    (hnn : ∀ q k, 0 ≤ (s.G.resources q).get k)
    (h : playCardMove activeRanks s pid cardId repl target = some s1) :
    ∀ q k, 0 ≤ (s1.G.resources q).get k := by
  unfold playCardMove at h
  by_cases g1 : pid ≠ s.currentPlayer
  · rw [if_pos g1] at h
    cases h
  · rw [if_neg g1] at h
    by_cases g2 : s.stages pid ≠ Stage.play
    · rw [if_pos g2] at h
      cases h
    · rw [if_neg g2] at h
      dsimp only at h
      cases hget : (s.G.hands pid).get?
          ((s.G.hands pid).findIdx (fun c => c.id = cardId)) with
      | none => rw [hget] at h; cases h
      | some card =>
        simp only [hget] at h
        cases hres : playCardResolve activeRanks s.G pid card repl target with
        | none => rw [hres] at h; cases h
        | some G1 =>
          simp only [hres] at h
          injection h with h
          rw [← h]
          exact playCardResolve_nonneg activeRanks s.G pid card repl target G1 hnn hres

theorem promoteMove_nonneg (activeRanks : List Rank) (s : MatchState) (pid : String)
    (s1 : MatchState) (hnn : ∀ q k, 0 ≤ (s.G.resources q).get k)
    (h : promoteMove activeRanks s pid = some s1) :
    ∀ q k, 0 ≤ (s1.G.resources q).get k := by
  unfold promoteMove at h
  by_cases g1 : pid ≠ s.currentPlayer
  · rw [if_pos g1] at h
    cases h
  · rw [if_neg g1] at h
    by_cases g2 : s.stages pid ≠ Stage.play
    · rw [if_pos g2] at h
      cases h
    · rw [if_neg g2] at h
      by_cases g3 : s.G.promotedThisTurn pid = true
      · rw [if_pos g3] at h
        cases h
      · rw [if_neg g3] at h
        cases hp : promoteRank activeRanks s.G pid (promotePlayerCount s) with
        | none => rw [hp] at h; cases h
        | some G1 =>
          simp only [hp] at h
          injection h with h
          rw [← h]
          exact promoteRank_nonneg activeRanks s.G pid (promotePlayerCount s) G1 hnn hp

theorem passMove_nonneg (s : MatchState) (pid : String) (s1 : MatchState)
    (hnn : ∀ q k, 0 ≤ (s.G.resources q).get k) (h : passMove s pid = some s1) :
    ∀ q k, 0 ≤ (s1.G.resources q).get k := by
  unfold passMove at h
  by_cases g1 : pid ≠ s.currentPlayer
  · rw [if_pos g1] at h
    cases h
  · rw [if_neg g1] at h
    by_cases g2 : s.stages pid ≠ Stage.play ∧ s.stages pid ≠ Stage.done
    · rw [if_pos g2] at h
      cases h
    · rw [if_neg g2] at h
      injection h with h
      rw [← h]
      exact hnn

theorem setupState_nonneg (activeRanks : List Rank) (shuffledDeck shuffledLegendary : List Card)
    (order : List String) :
    ∀ q k, 0 ≤ ((setupState activeRanks shuffledDeck shuffledLegendary order).G.resources
      q).get k := by
  have hfold : ∀ (os : List String) (G : GameState),
      (os.foldl (fun g p => drawCards g p STARTING_HAND_SIZE) G).resources = G.resources := by
    intro os
    induction os with
    | nil => intro G; rfl
    | cons p t ih =>
      intro G
      rw [List.foldl_cons, ih, drawCards_resources]
  intro q k
  simp only [setupState, hfold]
  cases k <;> decide

/-- C3 — in every match state reachable from setup by accepted moves, every
player's value for each of the five resource kinds is non-negative. -/
theorem c3_reachable_nonneg (activeRanks : List Rank) (s : MatchState)
    (h : Reachable activeRanks s) :
    ∀ pid k, 0 ≤ (s.G.resources pid).get k := by
  obtain ⟨shuffledDeck, shuffledLegendary, order, hrt⟩ := h
  induction hrt with
  | refl => exact setupState_nonneg activeRanks shuffledDeck shuffledLegendary order
  | tail hab hbc ih =>
    cases hbc with
    | draw pid hm => exact drawCardMove_nonneg activeRanks _ pid _ ih hm
    | play pid cardId repl target hm =>
      exact playCardMove_nonneg activeRanks _ pid cardId repl target _ ih hm
    | promote pid hm => exact promoteMove_nonneg activeRanks _ pid _ ih hm
    | pass pid hm => exact passMove_nonneg _ pid _ ih hm

theorem shiftRankG_playerOrder (activeRanks : List Rank) (G : GameState) (pid : String)
    (delta : Int) : (shiftRankG activeRanks G pid delta).playerOrder = G.playerOrder := by
  simp only [shiftRankG]
  split
  · rfl
  · split <;> rfl

theorem softRankFold_playerOrder (activeRanks : List Rank) (pid : String)
    (effects : List Effect) :
    ∀ acc : GameState × Int,
      (effects.foldl (softRankStep activeRanks pid) acc).1.playerOrder =
        acc.1.playerOrder := by
  induction effects with
  | nil => intro acc; rfl
  | cons e rest ih =>
    intro acc
    rw [List.foldl_cons, ih]
    cases he : e.resource with
    | rank => simp [softRankStep, he, shiftRankG_playerOrder]
    | res r => simp [softRankStep, he]

theorem applyRankEffects_playerOrder (activeRanks : List Rank) (pid : String)
    (effects : List Effect) :
    ∀ G : GameState,
      (applyRankEffects activeRanks G pid effects).playerOrder = G.playerOrder := by
  induction effects with
  | nil => intro G; rfl
  | cons e rest ih =>
    intro G
    rw [applyRankEffects, List.foldl_cons]
    cases he : e.resource with
    | rank =>
      have h1 := ih (shiftRankG activeRanks G pid e.value)
      rw [applyRankEffects] at h1
      simp [he, h1, shiftRankG_playerOrder]
    | res r =>
      have h1 := ih G
      rw [applyRankEffects] at h1
      simp [he, h1]

theorem softFallback_playerOrder (activeRanks : List Rank) (G : GameState) (p : String)
    (effects : List Effect) :
    ((softFallback activeRanks G p effects).1).playerOrder = G.playerOrder := by
  simp only [softFallback, GameState.setResources]
  rw [softRankFold_playerOrder]

theorem applyCardEffects_ok_playerOrder (activeRanks : List Rank) (G : GameState)
    (pid : String) (effects : List Effect) (repl : List ResourceKey) (G1 : GameState)
    (h : applyCardEffects activeRanks G pid effects repl = .ok G1) :
    G1.playerOrder = G.playerOrder := by
  simp only [applyCardEffects] at h
  by_cases hemp : effects.isEmpty
  · rw [if_pos hemp] at h
    injection h with h
    rw [← h]
  · rw [if_neg hemp] at h
    by_cases hlen : (repl.length : Int) ≠ replacementCostUnits (G.resources pid) effects
    · rw [if_pos hlen] at h
      cases h
    · rw [if_neg hlen] at h
      cases happ : applyGo (G.resources pid) repl effects with
      | error res => simp [happ] at h
      | ok pr =>
        obtain ⟨res, left⟩ := pr
        simp only [happ] at h
        injection h with h
        rw [← h]
        show (applyRankEffects activeRanks (G.setResources pid res) pid effects).playerOrder
          = G.playerOrder
        rw [applyRankEffects_playerOrder]
        rfl

theorem applyCardEffects_thrown_playerOrder (activeRanks : List Rank) (G : GameState)
    (pid : String) (effects : List Effect) (repl : List ResourceKey) (G1 : GameState)
    (h : applyCardEffects activeRanks G pid effects repl = .thrown G1) :
    G1.playerOrder = G.playerOrder := by
  simp only [applyCardEffects] at h
  by_cases hemp : effects.isEmpty
  · rw [if_pos hemp] at h
    cases h
  · rw [if_neg hemp] at h
    by_cases hlen : (repl.length : Int) ≠ replacementCostUnits (G.resources pid) effects
    · rw [if_pos hlen] at h
      cases h
    · rw [if_neg hlen] at h
      cases happ : applyGo (G.resources pid) repl effects with
      | error res =>
        simp only [happ] at h
        injection h with h
        rw [← h]
        rfl
      | ok pr =>
        obtain ⟨res, left⟩ := pr
        simp [happ] at h

theorem soft_playerOrder (activeRanks : List Rank) (G : GameState) (p : String)
    (effects : List Effect) :
    ((applyCardEffectsSoft activeRanks G p effects).1).playerOrder = G.playerOrder := by
  by_cases hemp : effects.isEmpty
  · simp [applyCardEffectsSoft, hemp]
  · unfold applyCardEffectsSoft
    rw [if_neg hemp]
    cases hplan : planReplacementResources (G.resources p) effects with
    | none =>
      dsimp only
      exact softFallback_playerOrder activeRanks G p effects
    | some picks =>
      dsimp only
      cases hap : applyCardEffects activeRanks G p effects picks with
      | ok G1 =>
        simp only [hap]
        exact applyCardEffects_ok_playerOrder activeRanks G p effects picks G1 hap
      | rejected =>
        simp only [hap]
        exact softFallback_playerOrder activeRanks G p effects
      | thrown G1 =>
        simp only [hap]
        rw [softFallback_playerOrder]
        exact applyCardEffects_thrown_playerOrder activeRanks G p effects picks G1 hap

theorem soft_fold_playerOrder (activeRanks : List Rank) (effects : List Effect) :
    ∀ (order : List String) (G : GameState),
      (order.foldl (fun g p => (applyCardEffectsSoft activeRanks g p effects).1)
        G).playerOrder = G.playerOrder := by
  intro order
  induction order with
  | nil => intro G; rfl
  | cons p t ih =>
    intro G
    rw [List.foldl_cons]
    exact (ih _).trans (soft_playerOrder activeRanks G p effects)

theorem promoteRank_playerOrder (activeRanks : List Rank) (G : GameState) (pid : String)
    (playerCount : Nat) (G1 : GameState)
    (h : promoteRank activeRanks G pid playerCount = some G1) :
    G1.playerOrder = G.playerOrder := by
  obtain ⟨nextRank, _, hG1⟩ := promoteRank_some_eq activeRanks G pid playerCount G1 h
  subst hG1
  rfl

theorem scanHandAux_playerOrder (activeRanks : List Rank) (playerIDs : List String)
    (pid : String) :
    ∀ (cards : List Card) (G : GameState) (i : Nat),
      (scanHandAux activeRanks playerIDs pid G cards i).1.playerOrder = G.playerOrder := by
  intro cards
  induction cards with
  | nil => intro G i; rfl
  | cons card rest ih =>
    intro G i
    rw [scanHandAux]
    cases hcat : card.category with
    | LYAP =>
      cases htgt : chooseLyapTarget activeRanks G pid with
      | none =>
        dsimp only
        exact ih G (i + 1)
      | some target =>
        dsimp only
        exact soft_playerOrder activeRanks G target card.effects
    | SCANDAL =>
      dsimp only
      exact soft_fold_playerOrder activeRanks card.effects _ G
    | DECISION =>
      dsimp only
      exact soft_fold_playerOrder activeRanks card.effects playerIDs G
    | NEUTRAL =>
      dsimp only
      cases hplan : planReplacementResources (G.resources pid) card.effects with
      | none =>
        dsimp only
        exact ih G (i + 1)
      | some repl =>
        dsimp only
        cases hap : applyCardEffects activeRanks G pid card.effects repl with
        | ok G1 =>
          dsimp only
          exact applyCardEffects_ok_playerOrder activeRanks G pid card.effects repl G1 hap
        | rejected =>
          dsimp only
          exact ih G (i + 1)
        | thrown G1 =>
          dsimp only
          exact (ih G1 (i + 1)).trans
            (applyCardEffects_thrown_playerOrder activeRanks G pid card.effects repl G1 hap)
    | VVNZ =>
      dsimp only
      cases hplan : planReplacementResources (G.resources pid) card.effects with
      | none =>
        dsimp only
        exact ih G (i + 1)
      | some repl =>
        dsimp only
        cases hap : applyCardEffects activeRanks G pid card.effects repl with
        | ok G1 =>
          dsimp only
          exact applyCardEffects_ok_playerOrder activeRanks G pid card.effects repl G1 hap
        | rejected =>
          dsimp only
          exact ih G (i + 1)
        | thrown G1 =>
          dsimp only
          exact (ih G1 (i + 1)).trans
            (applyCardEffects_thrown_playerOrder activeRanks G pid card.effects repl G1 hap)
    | SUPPORT =>
      dsimp only
      cases hplan : planReplacementResources (G.resources pid) card.effects with
      | none =>
        dsimp only
        exact ih G (i + 1)
      | some repl =>
        dsimp only
        cases hap : applyCardEffects activeRanks G pid card.effects repl with
        | ok G1 =>
          dsimp only
          exact applyCardEffects_ok_playerOrder activeRanks G pid card.effects repl G1 hap
        | rejected =>
          dsimp only
          exact ih G (i + 1)
        | thrown G1 =>
          dsimp only
          exact (ih G1 (i + 1)).trans
            (applyCardEffects_thrown_playerOrder activeRanks G pid card.effects repl G1 hap)
    | LEGENDARY =>
      dsimp only
      cases hplan : planReplacementResources (G.resources pid) card.effects with
      | none =>
        dsimp only
        exact ih G (i + 1)
      | some repl =>
        dsimp only
        cases hap : applyCardEffects activeRanks G pid card.effects repl with
        | ok G1 =>
          dsimp only
          exact applyCardEffects_ok_playerOrder activeRanks G pid card.effects repl G1 hap
        | rejected =>
          dsimp only
          exact ih G (i + 1)
        | thrown G1 =>
          dsimp only
          exact (ih G1 (i + 1)).trans
            (applyCardEffects_thrown_playerOrder activeRanks G pid card.effects repl G1 hap)

theorem drawCards_playerOrder (pid : String) :
    ∀ (n : Nat) (G : GameState), (drawCards G pid n).playerOrder = G.playerOrder := by
  intro n
  induction n with
  | zero => intro G; rfl
  | succ n ih =>
    intro G
    rw [drawCards]
    cases hdeck : G.deck.getLast? with
    | none => rfl
    | some card => rw [ih]

theorem simDraw_playerOrder (activeRanks : List Rank) (playerIDs : List String)
    (G : GameState) (pid : String) :
    (simDraw activeRanks playerIDs G pid).1.playerOrder = G.playerOrder := by
  simp only [simDraw]
  cases hdeck : G.deck.getLast? with
  | none => rfl
  | some card =>
    dsimp only
    by_cases hl : card.category = CardCategory.LYAP
    · rw [if_pos hl]
      exact soft_playerOrder activeRanks _ pid card.effects
    · rw [if_neg hl]
      by_cases hs : card.category = CardCategory.SCANDAL
      · rw [if_pos hs]
        exact soft_fold_playerOrder activeRanks card.effects playerIDs _
      · rw [if_neg hs]

theorem simPlay_playerOrder (activeRanks : List Rank) (playerIDs : List String)
    (numPlayers : Nat) (pid : String) (drawn : GameState × Stage) (passes : Nat) :
    (simPlay activeRanks playerIDs numPlayers pid drawn passes).1.playerOrder =
      drawn.1.playerOrder := by
  simp only [simPlay]
  by_cases hst : drawn.2 = Stage.play
  · rw [if_pos hst]
    cases hp : promoteRank activeRanks drawn.1 pid numPlayers with
    | none =>
      dsimp only
      have hscan := scanHandAux_playerOrder activeRanks playerIDs pid
        (drawn.1.hands pid) drawn.1 0
      cases hres : scanHandAux activeRanks playerIDs pid drawn.1 (drawn.1.hands pid) 0 with
      | mk G3 o =>
        rw [hres] at hscan
        cases o with
        | none =>
          dsimp only
          exact hscan
        | some pr =>
          obtain ⟨idx, card⟩ := pr
          dsimp only
          rw [if_neg Bool.false_ne_true]
          cases hp2 : promoteRank activeRanks
              { G3 with hands := updMap G3.hands pid ((G3.hands pid).eraseIdx idx),
                        discard := G3.discard ++ [card] } pid numPlayers with
          | none =>
            dsimp only
            exact hscan
          | some g =>
            dsimp only
            exact (promoteRank_playerOrder activeRanks _ pid numPlayers g hp2).trans hscan
    | some g0 =>
      dsimp only
      have hpg : g0.playerOrder = drawn.1.playerOrder :=
        promoteRank_playerOrder activeRanks drawn.1 pid numPlayers g0 hp
      have hscan := scanHandAux_playerOrder activeRanks playerIDs pid (g0.hands pid) g0 0
      cases hres : scanHandAux activeRanks playerIDs pid g0 (g0.hands pid) 0 with
      | mk G3 o =>
        rw [hres] at hscan
        cases o with
        | none =>
          dsimp only
          exact hscan.trans hpg
        | some pr =>
          obtain ⟨idx, card⟩ := pr
          dsimp only
          rw [if_pos rfl]
          exact hscan.trans hpg
  · rw [if_neg hst]

theorem getWinner_mem (activeRanks : List Rank) (G : GameState) (w : String)
    (h : getWinner activeRanks G = some w) : w ∈ G.playerOrder := by
  simp only [getWinner] at h
  cases hfind : G.playerOrder.find? (fun pid => G.ranks pid = getTopRankId activeRanks) with
  | some pid =>
    simp only [hfind] at h
    injection h with h
    subst h
    exact List.mem_of_find?_eq_some hfind
  | none =>
    simp only [hfind] at h
    by_cases hdeck : G.deck.length = 0
    · rw [if_pos hdeck] at h
      by_cases hany : G.playerOrder.any (fun pid => (G.hands pid).length ≠ 0) = true
      · rw [if_pos hany] at h
        cases h
      · rw [if_neg hany] at h
        exact (sortByDesc_head _ _ _ h).1
    · rw [if_neg hdeck] at h
      cases h

theorem fallbackWinner_mem (G : GameState) (hne : G.playerOrder ≠ []) :
    fallbackWinner G ∈ G.playerOrder := by
  cases hsort : sortByDesc (fun pid => sumResources (G.resources pid)) G.playerOrder with
  | nil =>
    exfalso
    have hperm : List.Perm
        (sortByDesc (fun pid => sumResources (G.resources pid)) G.playerOrder)
        G.playerOrder := by
      rw [sortByDesc]
      exact List.perm_insertionSort _ _
    rw [hsort] at hperm
    exact hne (List.Perm.nil_eq hperm).symm
  | cons w t =>
    have hh : (sortByDesc (fun pid => sumResources (G.resources pid))
        G.playerOrder).head? = some w := by
      rw [hsort]
      rfl
    have hfw : fallbackWinner G = w := by
      rw [fallbackWinner, hh]
      rfl
    rw [hfw]
    exact (sortByDesc_head _ _ _ hh).1

theorem simLoop_winner_mem (activeRanks : List Rank) (playerIDs : List String)
    (numPlayers maxTurns : Nat) (hne : playerIDs ≠ []) :
    ∀ (fuel : Nat) (G : GameState) (ci turns passes : Nat), G.playerOrder = playerIDs →
      (simLoop activeRanks playerIDs numPlayers maxTurns fuel G ci turns passes).winner
        ∈ playerIDs := by
  intro fuel
  induction fuel with
  | zero =>
    intro G ci turns passes hord
    show fallbackWinner G ∈ playerIDs
    rw [← hord]
    exact fallbackWinner_mem G (by rw [hord]; exact hne)
  | succ fuel ih =>
    intro G ci turns passes hord
    have hGf : (simPlay activeRanks playerIDs numPlayers (playerIDs.getD ci "")
        (simDraw activeRanks playerIDs G (playerIDs.getD ci "")) passes).1.playerOrder
        = playerIDs := by
      rw [simPlay_playerOrder, simDraw_playerOrder, hord]
    simp only [simLoop]
    cases hw : getWinner activeRanks (simPlay activeRanks playerIDs numPlayers
        (playerIDs.getD ci "") (simDraw activeRanks playerIDs G (playerIDs.getD ci ""))
        passes).1 with
    | some w =>
      dsimp only
      rw [← hGf]
      exact getWinner_mem activeRanks _ w hw
    | none =>
      dsimp only
      exact ih _ _ _ _ hGf

theorem simulateSingleMatch_winner_mem (activeRanks : List Rank)
    (shuffledDeck shuffledLegendary : List Card) (numPlayers maxTurns : Nat)
    (hne : numPlayers ≠ 0) :
    (simulateSingleMatch activeRanks shuffledDeck shuffledLegendary numPlayers
      maxTurns).winner ∈ (List.range numPlayers).map (fun i => toString i) := by
  have hlist : ((List.range numPlayers).map (fun i => toString i)) ≠ [] := by
    intro hcon
    have hlen := congrArg List.length hcon
    simp at hlen
    exact hne hlen
  have hfold : ∀ (os : List String) (G : GameState),
      (os.foldl (fun g p => drawCards g p STARTING_HAND_SIZE) G).playerOrder
        = G.playerOrder := by
    intro os
    induction os with
    | nil => intro G; rfl
    | cons p t ih =>
      intro G
      rw [List.foldl_cons]
      exact (ih _).trans (drawCards_playerOrder p STARTING_HAND_SIZE G)
  simp only [simulateSingleMatch]
  refine simLoop_winner_mem activeRanks _ numPlayers maxTurns hlist maxTurns _ 0 0 0 ?_
  rw [hfold]

theorem map_updMap_eq_of_not_mem (wins : String → Nat) (w : String) (v : Nat) :
    ∀ (l : List String), w ∉ l → l.map (updMap wins w v) = l.map wins := by
  intro l
  induction l with
  | nil => intro _; rfl
  | cons a t ih =>
    intro hw
    rw [List.map_cons, List.map_cons, ih (fun hmem => hw (List.mem_cons_of_mem a hmem))]
    have ha : a ≠ w := fun hcon => hw (hcon ▸ List.mem_cons_self a t)
    simp [updMap, ha]

theorem sum_map_updMap (wins : String → Nat) (w : String) (v : Nat) :
    ∀ (l : List String), l.Nodup → w ∈ l →
      (l.map (updMap wins w v)).sum + wins w = (l.map wins).sum + v := by
  intro l
  induction l with
  | nil => intro _ hw; cases hw
  | cons a t ih =>
    intro hnd hw
    rw [List.map_cons, List.map_cons, List.sum_cons, List.sum_cons]
    by_cases ha : a = w
    · subst ha
      have hnotmem : a ∉ t := (List.nodup_cons.mp hnd).1
      rw [map_updMap_eq_of_not_mem wins a v t hnotmem]
      have hupd : updMap wins a v a = v := by simp [updMap]
      rw [hupd]
      omega
    · have hwt : w ∈ t := by
        cases List.mem_cons.mp hw with
        | inl hcon => exact absurd hcon.symm ha
        | inr hmem => exact hmem
      have hupd : updMap wins w v a = wins a := by simp [updMap, ha]
      rw [hupd]
      have hih := ih (List.nodup_cons.mp hnd).2 hwt
      omega

theorem sum_map_zero : ∀ (l : List String), (l.map (fun _ => (0 : Nat))).sum = 0 := by
  intro l
  induction l with
  | nil => rfl
  | cons a t ih => rw [List.map_cons, List.sum_cons, ih]

theorem runSimWinsLoop_sum (activeRanks : List Rank) (deckOf legOf : Nat → List Card)
    (numPlayers maxTurns : Nat) (hne : numPlayers ≠ 0)
    (hnd : ((List.range numPlayers).map (fun i => toString i)).Nodup) :
    ∀ (i : Nat) (wins : String → Nat),
      (((List.range numPlayers).map (fun i => toString i)).map
        (runSimWinsLoop activeRanks deckOf legOf numPlayers maxTurns i wins)).sum
      = (((List.range numPlayers).map (fun i => toString i)).map wins).sum + i := by
  intro i
  induction i with
  | zero =>
    intro wins
    simp only [runSimWinsLoop, Nat.add_zero]
  | succ i ih =>
    intro wins
    simp only [runSimWinsLoop]
    rw [ih]
    have hw := simulateSingleMatch_winner_mem activeRanks (deckOf i) (legOf i)
      numPlayers maxTurns hne
    have hsum := sum_map_updMap wins
      (simulateSingleMatch activeRanks (deckOf i) (legOf i) numPlayers maxTurns).winner
      (wins (simulateSingleMatch activeRanks (deckOf i) (legOf i) numPlayers
        maxTurns).winner + 1)
      ((List.range numPlayers).map (fun i => toString i)) hnd hw
    omega

theorem clampPlayers_cases (players : Nat) :
    clampPlayers players = 2 ∨ clampPlayers players = 3 ∨ clampPlayers players = 4 ∨
    clampPlayers players = 5 ∨ clampPlayers players = 6 := by
  simp only [clampPlayers]
  split <;> omega

theorem range_toString_nodup (n : Nat)
    (h : n = 2 ∨ n = 3 ∨ n = 4 ∨ n = 5 ∨ n = 6) :
    ((List.range n).map (fun i => toString i)).Nodup := by
  rcases h with h | h | h | h | h <;> subst h <;> decide

/-- C3 witness — the two-player setup state is reachable and its first
player's time value is non-negative. -/
theorem c3_witness :
    0 ≤ (((setupState baseRanks [] [] ["0", "1"]).G.resources "0").get
      ResourceKey.time) :=
  c3_reachable_nonneg baseRanks (setupState baseRanks [] [] ["0", "1"])
    ⟨[], [], ["0", "1"], Relation.ReflTransGen.refl⟩ "0" ResourceKey.time

/-- C9 — for every input (player count, simulation count, turn budget), the
per-seat win counts of `runGameSimulations` sum to exactly the clamped number
of simulated matches: every match, stalled or not, resolves to exactly one
winning seat. -/
theorem c9_seat_wins_sum (activeRanks : List Rank) (deckOf legOf : Nat → List Card)
    (players simulations maxTurns : Nat) :
    ((seatWins activeRanks deckOf legOf players simulations maxTurns).map Prod.snd).sum
      = clampSims simulations := by
  have hcases := clampPlayers_cases players
  have hne : clampPlayers players ≠ 0 := by rcases hcases with h | h | h | h | h <;> omega
  have hnd := range_toString_nodup (clampPlayers players) hcases
  have hsum := runSimWinsLoop_sum activeRanks deckOf legOf (clampPlayers players)
    (clampMaxTurns maxTurns) hne hnd (clampSims simulations) (fun _ => 0)
  rw [sum_map_zero] at hsum
  rw [List.map_map] at hsum
  simp only [seatWins]
  rw [List.map_map]
  have hfun : (List.range (clampPlayers players)).map
      (Prod.snd ∘ fun i => (toString i,
        runSimWinsLoop activeRanks deckOf legOf (clampPlayers players)
          (clampMaxTurns maxTurns) (clampSims simulations) (fun _ => 0) (toString i)))
      = (List.range (clampPlayers players)).map
        ((runSimWinsLoop activeRanks deckOf legOf (clampPlayers players)
          (clampMaxTurns maxTurns) (clampSims simulations) (fun _ => 0)) ∘
          (fun i => toString i)) := rfl
  rw [hfun, hsum]
  omega

end JOJ
